import Mathlib

/-!
Verification development for the structured-json-cpp schema-driven JSON codec.

The definitions below are a shallow embedding of the two engine revisions in
the repository:

* the revision in src/json.hpp (namespace json::impl, entry points
  json::parse and json::stringify), modelled by parseStep / parseF /
  parseImpl / parseFieldsImpl and strF / stringifyImplDense;
* the revision in src/parser.hpp and src/stringifier.hpp (structs
  json::parser and json::stringifier), modelled by parseBoolP, parseNumberP,
  parseStringP, arrFixedLoop / parseArrayP, parseElemStepP / parseElemsP,
  parseOptionalP and stringifyOptP.

Modelling conventions:

* input text is a List Char; a parse position is the remaining suffix;
* numeric targets are modelled as unbounded Int with the semantics of
  std::from_chars for a signed integer type: an optional minus sign followed
  by a greedy run of decimal digits, and no leading plus sign; overflow
  (which makes from_chars fail) is outside the model;
* a char cast of an int (the uXXXX escape paths) truncates to 8 bits, and
  char is treated as unsigned;
* parse failure is none (the C++ failure position is not modelled, and the
  partially written state of the destination on failure is not modelled);
* the impl loops in json.hpp return it + 1 with success = true even when the
  loop stopped because it reached the end of the input, producing an
  iterator one past the end; this is recorded by a none remainder (Rem),
  and any later use of such an iterator, undefined behaviour in C++, is
  modelled as failure;
* recursion over the input is bounded by an explicit fuel argument; the
  top-level entry points supply fuel that is provably sufficient (each
  recursive step either consumes input or moves to a structurally smaller
  descriptor), see the lemma parseF_norm below.
-/

namespace SJson

/-- Whitespace recognised by std::isspace in the C locale. -/
def isWsChar (c : Char) : Bool :=
  c = ' ' || c = '\t' || c = '\n' || c = Char.ofNat 11 || c = Char.ofNat 12 || c = Char.ofNat 13

/-- Model of impl::skip_whitespace (src/json.hpp): advance while isspace. -/
def skipWsL (s : List Char) : List Char := s.dropWhile isWsChar

/-- Literal true (json::literals::true_). -/
def trueLit : List Char := ['t', 'r', 'u', 'e']

/-- Literal false (json::literals::false_). -/
def falseLit : List Char := ['f', 'a', 'l', 's', 'e']

/-- Literal null (json::literals::null). -/
def nullLit : List Char := ['n', 'u', 'l', 'l']

/-- Model of impl::expect for a string_view (src/json.hpp lines 452-461):
consume the literal character by character, failing on a mismatch or on
running out of input. -/
def expectStr : List Char → List Char → Option (List Char)
  | [], s => some s
  | c :: lit, s =>
    match s with
    | c2 :: r => if c2 = c then expectStr lit r else none
    | [] => none

/-- Greedy run of decimal digits with accumulated value, as scanned by
std::from_chars. Returns the value and the rest of the text. -/
def digitsLoop : List Char → Int → Int × List Char
  | [], acc => (acc, [])
  | c :: rest, acc =>
    if c.isDigit then digitsLoop rest (10 * acc + (c.toNat - 48 : Nat))
    else (acc, c :: rest)

/-- Whether the text starts with a decimal digit. -/
def headIsDigit : List Char → Bool
  | [] => false
  | c :: _ => c.isDigit

/-- Model of std::from_chars into a signed integer target: an optional minus
sign (no plus sign is accepted) followed by at least one decimal digit,
scanned greedily. Overflow is not modelled (the Int is unbounded). -/
def fromCharsInt (s : List Char) : Option (Int × List Char) :=
  match s with
  | [] => none
  | c :: rest =>
    if c = '-' then
      if headIsDigit rest then
        let p := digitsLoop rest 0
        some (-p.1, p.2)
      else none
    else if c.isDigit then
      let p := digitsLoop s 0
      some (p.1, p.2)
    else none

/-- Value of a hexadecimal digit, if the character is one (std::isxdigit). -/
def hexDigitVal (c : Char) : Option Nat :=
  if '0' ≤ c ∧ c ≤ '9' then some (c.toNat - 48)
  else if 'a' ≤ c ∧ c ≤ 'f' then some (c.toNat - 87)
  else if 'A' ≤ c ∧ c ≤ 'F' then some (c.toNat - 55)
  else none

/-- Model of std::from_chars with base 16 over exactly four characters
followed by static_cast to char: the value of the maximal hexadecimal-digit
run among the four characters, truncated to 8 bits.  When the first
character is not a hexadecimal digit, from_chars fails and the C++ value is
read uninitialised (undefined behaviour); that case is modelled as 0. -/
def hexCharOf (a b c d : Char) : Char :=
  match hexDigitVal a with
  | none => Char.ofNat 0
  | some va =>
    match hexDigitVal b with
    | none => Char.ofNat (va % 256)
    | some vb =>
      match hexDigitVal c with
      | none => Char.ofNat ((16 * va + vb) % 256)
      | some vc =>
        match hexDigitVal d with
        | none => Char.ofNat ((256 * va + 16 * vb + vc) % 256)
        | some vd => Char.ofNat ((4096 * va + 256 * vb + 16 * vc + vd) % 256)

/-- Model of impl::unscape (src/json.hpp lines 217-232).  Note that an
unknown escape character is passed through unchanged (the default case). -/
def unscape (c : Char) : Char :=
  if c = '0' then Char.ofNat 0
  else if c = 'b' then Char.ofNat 8
  else if c = 'f' then Char.ofNat 12
  else if c = 'n' then '\n'
  else if c = 'r' then Char.ofNat 13
  else if c = 't' then '\t'
  else c

/-- Loop of impl::parse_escaped_string (src/json.hpp lines 468-501),
starting just after the opening quote, with the accumulated contents. -/
def parseEscLoop : List Char → List Char → Option (List Char × List Char)
  | [], _ => none
  | c :: rest, acc =>
    if c = '"' then some (acc, rest)
    else if c = '\\' then
      match rest with
      | [] => none
      | e :: rest2 =>
        if e = 'u' then
          match rest2 with
          | a :: b :: c2 :: d :: rest6 => parseEscLoop rest6 (acc ++ [hexCharOf a b c2 d])
          | _ => none
        else parseEscLoop rest2 (acc ++ [unscape e])
    else parseEscLoop rest (acc ++ [c])

/-- Model of impl::parse_escaped_string (src/json.hpp lines 463-502):
expect a quote, then run the unescaping loop. -/
def parseEscapedString (s : List Char) : Option (List Char × List Char) :=
  match s with
  | c :: rest => if c = '"' then parseEscLoop rest [] else none
  | [] => none

/-- Homogeneous descriptors of the json.hpp revision: the tag types Boolean,
Number, String and the composite descriptors array and object
(src/json.hpp lines 15-29).  Field lists (std::tuple of json::field) are
modelled separately, see parseFieldsImpl. -/
inductive Desc : Type
  | boolean : Desc
  | number : Desc
  | string : Desc
  | array : Desc → Desc
  | object : Desc → Desc
  deriving DecidableEq, Repr

/-- Values of the shapes the descriptors describe.  Numbers are modelled as
unbounded integers, strings as character lists, associative-map targets as
key/value association lists in insertion order, and record targets (for
field lists and element lists) as positional slot lists (va). -/
inductive Val : Type
  | vb : Bool → Val
  | vn : Int → Val
  | vs : List Char → Val
  | va : List Val → Val
  | vo : List (List Char × Val) → Val

/-- Remainder of a parse.  A some remainder is the unread suffix; none
records the json.hpp loops returning an iterator one past the end of the
input (the unguarded it + 1 when the loop stopped at end of input). -/
abbrev Rem := Option (List Char)

/-- Model of std::map emplace as used by json::object_inserter
(src/json.hpp lines 159-166): insert only when the key is not present. -/
def emplaceA (m : List (List Char × Val)) (k : List Char) (v : Val) :
    List (List Char × Val) :=
  if (m.map Prod.fst).contains k then m else m ++ [(k, v)]

/-- Pending work items of the impl-revision parser: a value parse for a
descriptor, the element loop of impl::parse for array, the entry loop of
impl::parse for object, the entry loop of impl::parse for a field tuple,
and the dispatch of impl::parse_field over the remaining fields. -/
inductive PTask : Type
  | val : Desc → PTask
  | arrLoop : Desc → List Val → PTask
  | objLoop : Desc → List (List Char × Val) → PTask
  | fieldsLoop : List (List Char × Desc) → List Val → PTask
  | fieldDisp : List (List Char × Desc) → Nat → List Char →
      List (List Char × Desc) → List Val → PTask

/-- One step of the impl-revision parser (src/json.hpp lines 504-708),
parametrised by the interpretation of the recursive calls.  Each arm is a
transcription of the corresponding impl::parse overload:

* val boolean: impl::parse for Boolean (lines 513-529), expect the literal
  true, else the literal false;
* val number: impl::parse for Number (lines 531-545), std::from_chars;
* val string: impl::parse for String (lines 547-559) via
  impl::parse_escaped_string (string_assigner for std::string assigns the
  scanned string);
* val (array d): impl::parse for array (lines 561-593): expect an opening
  bracket, skip whitespace, then run the element loop;
* val (object d): impl::parse for object (lines 595-642), likewise;
* arrLoop: the while loop of lines 571-590 with its trailing
  return parse_result(it + 1, true); a loop that stops at the end of the
  input still returns success, with the overrun iterator recorded as a none
  remainder; an inner parse that itself overran is then fed to
  skip_whitespace, undefined behaviour modelled as failure;
* objLoop: the while loop of lines 605-639, with keys read by
  impl::parse_escaped_string and insertion through object_inserter
  (std::map emplace);
* fieldsLoop: the while loop of impl::parse for a field tuple
  (lines 666-708);
* fieldDisp: impl::parse_field (lines 644-664): scan the fields in order,
  parse the value with the first field whose name equals the key, and fail
  when no field matches. -/
def parseStep (rec : PTask → List Char → Option (Val × Rem)) :
    PTask → List Char → Option (Val × Rem)
  | .val .boolean, s =>
    match expectStr trueLit s with
    | some r => some (.vb true, some r)
    | none =>
      match expectStr falseLit s with
      | some r => some (.vb false, some r)
      | none => none
  | .val .number, s =>
    match fromCharsInt s with
    | some (n, r) => some (.vn n, some r)
    | none => none
  | .val .string, s =>
    match parseEscapedString s with
    | some (str, r) => some (.vs str, some r)
    | none => none
  | .val (.array d), s =>
    match s with
    | c :: r => if c = '[' then rec (.arrLoop d []) (skipWsL r) else none
    | [] => none
  | .val (.object d), s =>
    match s with
    | c :: r => if c = '{' then rec (.objLoop d []) (skipWsL r) else none
    | [] => none
  | .arrLoop d acc, s =>
    match s with
    | [] => some (.va acc, none)
    | c :: r =>
      if c = ']' then some (.va acc, some r)
      else
        match rec (.val d) (c :: r) with
        | some (v, some r1) =>
          (match skipWsL r1 with
           | [] => none
           | c2 :: r3 =>
             if c2 = ',' then rec (.arrLoop d (acc ++ [v])) (skipWsL r3)
             else if c2 = ']' then some (.va (acc ++ [v]), some r3)
             else none)
        | _ => none
  | .objLoop d acc, s =>
    match s with
    | [] => some (.vo acc, none)
    | c :: r =>
      if c = '}' then some (.vo acc, some r)
      else
        match parseEscapedString (c :: r) with
        | none => none
        | some (k, r1) =>
          (match skipWsL r1 with
           | c2 :: r2 =>
             if c2 = ':' then
               match rec (.val d) (skipWsL r2) with
               | some (v, some r3) =>
                 (match skipWsL r3 with
                  | [] => none
                  | c4 :: r5 =>
                    if c4 = ',' then rec (.objLoop d (emplaceA acc k v)) (skipWsL r5)
                    else if c4 = '}' then some (.vo (emplaceA acc k v), some r5)
                    else none)
               | _ => none
             else none
           | [] => none)
  | .fieldsLoop flds record, s =>
    match s with
    | [] => some (.va record, none)
    | c :: r =>
      if c = '}' then some (.va record, some r)
      else
        match parseEscapedString (c :: r) with
        | none => none
        | some (k, r1) =>
          (match skipWsL r1 with
           | c2 :: r2 =>
             if c2 = ':' then
               match rec (.fieldDisp flds 0 k flds record) (skipWsL r2) with
               | some (.va record2, some r3) =>
                 (match skipWsL r3 with
                  | [] => none
                  | c4 :: r5 =>
                    if c4 = ',' then rec (.fieldsLoop flds record2) (skipWsL r5)
                    else if c4 = '}' then some (.va record2, some r5)
                    else none)
               | _ => none
             else none
           | [] => none)
  | .fieldDisp rest idx key flds record, s =>
    match rest with
    | [] => none
    | (name, d) :: rest2 =>
      if name = key then
        match rec (.val d) s with
        | some (v, rem) => some (.va (record.set idx v), rem)
        | none => none
      else rec (.fieldDisp rest2 (idx + 1) key flds record) s

/-- Fuelled interpreter of the impl-revision parser.  Fuel is a modelling
device: every recursive step of the C++ code either consumes input or moves
to a structurally smaller piece of work, so the bounds supplied by the
entry points below are sufficient (see parseF_norm). -/
def parseF : Nat → PTask → List Char → Option (Val × Rem)
  | 0, _, _ => none
  | f + 1, task, s => parseStep (parseF f) task s

/-- Fuel supplied for a top-level value parse. -/
def implFuel (s : List Char) : Nat := 2 * s.length + 4

/-- Model of json::parse (src/json.hpp lines 718-722) for the homogeneous
descriptors: impl::parse on the whole text, no leading whitespace skip. -/
def parseImpl (d : Desc) (s : List Char) : Option (Val × Rem) :=
  parseF (implFuel s) (.val d) s

/-- Model of json::parse for a field-list descriptor (a std::tuple of
json::field): impl::parse for tuples (src/json.hpp lines 666-708).  A field
is a pair of its name and its descriptor; the member pointer of the i-th
field is modelled as slot i of the record. -/
def parseFieldsImpl (flds : List (List Char × Desc)) (record : List Val)
    (s : List Char) : Option (Val × Rem) :=
  match s with
  | c :: r =>
    if c = '{' then
      parseF (2 * s.length + 6 + flds.length) (.fieldsLoop flds record) (skipWsL r)
    else none
  | [] => none

/-- Model of array_inserter for a fixed-extent destination E[N]
(src/json.hpp lines 147-157): the insertion is values[_index++] = element
with no bounds check.  The buffer models the N slots of the C++ array, so
its length is the extent; a write at an index at or beyond it goes past the
buffer's end — undefined behaviour, modelled as none. -/
def arrInsFixedImpl (buf : List Val) (idx : Nat) (v : Val) : Option (List Val) :=
  if idx < buf.length then some (buf.set idx v) else none

/-- Loop of impl::parse for array (src/json.hpp lines 571-590) specialised
to a fixed-extent destination: the same loop as the arrLoop arm of
parseStep, except that every successfully parsed element is inserted
through array_inserter for E[N] — the unguarded indexed write above —
immediately after its parse, exactly as inserter(value, element) runs
before the whitespace skip in the source. -/
def arrImplFixedLoop (pv : List Char → Option (Val × Rem)) :
    Nat → Nat → List Val → List Char → Option ((List Val × Nat) × Rem)
  | 0, _, _, _ => none
  | f + 1, idx, buf, s =>
    match s with
    | [] => some ((buf, idx), none)
    | c :: r =>
      if c = ']' then some ((buf, idx), some r)
      else
        match pv (c :: r) with
        | some (v, some r1) =>
          (match arrInsFixedImpl buf idx v with
           | none => none
           | some buf2 =>
             match skipWsL r1 with
             | [] => none
             | c2 :: r3 =>
               if c2 = ',' then arrImplFixedLoop pv f (idx + 1) buf2 (skipWsL r3)
               else if c2 = ']' then some ((buf2, idx + 1), some r3)
               else none)
        | _ => none

/-- Model of json::parse via impl::parse for Array(D) into a fixed-extent
destination (src/json.hpp lines 561-593 instantiated with array_inserter
for E[N]): expect the opening bracket, skip whitespace, run the loop. -/
def parseArrImplFixed (d : Desc) (buf : List Val) (s : List Char) :
    Option ((List Val × Nat) × Rem) :=
  match s with
  | c :: r =>
    if c = '[' then
      arrImplFixedLoop (fun t => parseF (implFuel s) (.val d) t) s.length 0 buf (skipWsL r)
    else none
  | [] => none

/-- Printability test of std::isprint in the C locale (codes 32 to 126). -/
def isPrintable (c : Char) : Bool := 32 ≤ c.toNat && c.toNat ≤ 126

/-- Lowercase hexadecimal digit of a value below 16. -/
def hexDigitChar (n : Nat) : Char :=
  if n < 10 then Char.ofNat (48 + n) else Char.ofNat (87 + n)

/-- Four lowercase hexadecimal digits, as printed by sprintf with a 04x
format for a non-negative int below 0x10000 (char is modelled unsigned). -/
def hex4 (n : Nat) : List Char :=
  [hexDigitChar (n / 4096 % 16), hexDigitChar (n / 256 % 16),
   hexDigitChar (n / 16 % 16), hexDigitChar (n % 16)]

/-- Escape of one character per impl::needs_escaping and the writer in
impl::write_escaped_string (src/json.hpp lines 194-257): the named escapes
(including a backslash-0 escape for the NUL character), printable
characters verbatim, and a u escape with four hex digits otherwise. -/
def escapeChar (c : Char) : List Char :=
  if c = Char.ofNat 0 then ['\\', '0']
  else if c = '"' then ['\\', '"']
  else if c = '\\' then ['\\', '\\']
  else if c = '/' then ['\\', '/']
  else if c = Char.ofNat 8 then ['\\', 'b']
  else if c = Char.ofNat 12 then ['\\', 'f']
  else if c = '\n' then ['\\', 'n']
  else if c = Char.ofNat 13 then ['\\', 'r']
  else if c = '\t' then ['\\', 't']
  else if isPrintable c then [c]
  else '\\' :: 'u' :: hex4 (c.toNat % 65536)

/-- Model of impl::write_escaped_string (src/json.hpp lines 234-257): a
quote, the escaped characters, a closing quote. -/
def writeEscapedStr (str : List Char) : List Char :=
  '"' :: (str.map escapeChar).flatten ++ ['"']

/-- Work items of the impl-revision stringifier: one value, the elements of
an array, or the entries of an object. -/
inductive StrTask : Type
  | one : Val → StrTask
  | many : List Val → StrTask
  | entries : List (List Char × Val) → StrTask

/-- One step of the model of impl::Stringify (src/json.hpp lines 259-439)
under the dense formatting (json::dense sets dense = true and newline_elements =
false, so spacing emits nothing and the only separators are commas).
Descriptor/value pairings the C++ type system rules out return [].  Note
the object arm (lines 347-385): the writer surrounds the key with its own
quote characters around write_escaped_string, which already emits the
surrounding quotes itself, so every key is emitted with doubled quotes. -/
def strStep (rec : Desc → StrTask → List Char) : Desc → StrTask → List Char
  | d, .one v =>
    (match d, v with
     | .boolean, .vb b => if b then trueLit else falseLit
     | .number, .vn n => (toString n).toList
     | .string, .vs str => writeEscapedStr str
     | .array d2, .va vs => '[' :: rec d2 (.many vs) ++ [']']
     | .object d2, .vo m => '{' :: rec d2 (.entries m) ++ ['}']
     | _, _ => [])
  | _, .many [] => []
  | d, .many (v :: vs) =>
    (match vs with
     | [] => rec d (.one v)
     | _ => rec d (.one v) ++ ',' :: rec d (.many vs))
  | _, .entries [] => []
  | d, .entries ((k, v) :: m) =>
    (('"' :: writeEscapedStr k ++ ['"', ':']) ++ rec d (.one v)) ++
      (match m with
       | [] => []
       | _ => ',' :: rec d (.entries m))

/-- Fuelled interpreter for the stringifier work items. -/
def strF : Nat → Desc → StrTask → List Char
  | 0, _, _ => []
  | f + 1, d, t => strStep (strF f) d t

/-- Model of json::stringify (src/json.hpp lines 712-716) with the built-in
dense formatting.  The fuel argument bounds the chain of work items; the
C++ recursion is structural over the value, so every fuel at least twice
the node count of the value produces the complete text (the theorems below
show their concrete results are stable under every larger fuel). -/
def stringifyImplDense (fuel : Nat) (d : Desc) (v : Val) : List Char :=
  strF fuel d (.one v)

/-!
Models of the parser.hpp / stringifier.hpp revision (structs json::parser
and json::stringifier).
-/

/-- Leaf descriptors handled by the parser.hpp revision model: boolean_t,
number_t and string_t targets with a growable (std::string) string target.
The claims about this revision only involve leaf element descriptors. -/
inductive DescP : Type
  | pbool : DescP
  | pnum : DescP
  | pstr : DescP
  deriving DecidableEq, Repr

/-- Test whether the pattern occurs at the head of the text. -/
def headMatches (pat s : List Char) : Bool := pat.isPrefixOf s

/-- First index at which the literal false occurs in the text, if any. -/
def findFalse : List Char → Option Nat
  | [] => none
  | c :: rest =>
    if headMatches falseLit (c :: rest) then some 0
    else (findFalse rest).map (· + 1)

/-- Model of json::parser::parse_boolean (src/parser.hpp lines 126-135)
with the regex bool_re defined as caret-true-bar-false (line 19).  In
ECMAScript the caret binds only to the first alternative, so the regex
matches either the literal true at the start of the searched range or the
literal false anywhere in it; std::regex_search finds the leftmost match.
The parsed value is the comparison of the matched text with the literal
true, and the cursor advances to the end of the match. -/
def parseBoolP (s : List Char) : Option (Bool × List Char) :=
  if headMatches trueLit s then some (true, s.drop 4)
  else
    match findFalse s with
    | some j => some (false, s.drop (j + 5))
    | none => none

/-- Count of leading decimal digits. -/
def takeDigitsLen : List Char → Nat
  | [] => 0
  | c :: rest => if c.isDigit then takeDigitsLen rest + 1 else 0

/-- Length of the fraction-and-exponent tail matched by number_re
(src/parser.hpp line 20): an optional dot with at least one digit, then an
optional e or E with an optional sign and at least one digit. -/
def fracExpLen (s : List Char) : Nat :=
  let fLen :=
    match s with
    | '.' :: r => let k := takeDigitsLen r; if k = 0 then 0 else 1 + k
    | _ => 0
  let s2 := s.drop fLen
  let eLen :=
    match s2 with
    | c :: r =>
      if c = 'e' ∨ c = 'E' then
        match r with
        | c2 :: r2 =>
          if c2 = '+' ∨ c2 = '-' then
            let k := takeDigitsLen r2; if k = 0 then 0 else 2 + k
          else
            let k := takeDigitsLen r; if k = 0 then 0 else 1 + k
        | [] => 0
      else 0
    | [] => 0
  fLen + eLen

/-- Length of the anchored match of number_re at the head of the text, if
the regex matches: an optional sign, an integer part that is either 0 or a
nonzero digit followed by digits, then the fraction/exponent tail. -/
def scanNumLen (s : List Char) : Option Nat :=
  let signLen : Nat :=
    match s with
    | c :: _ => if c = '+' ∨ c = '-' then 1 else 0
    | [] => 0
  let s1 := s.drop signLen
  match s1 with
  | [] => none
  | c :: r =>
    if c = '0' then some (signLen + 1 + fracExpLen r)
    else if c.isDigit then
      let k := takeDigitsLen r
      some (signLen + 1 + k + fracExpLen (r.drop k))
    else none

/-- Model of json::parser::parse_number (src/parser.hpp lines 137-149):
search number_re at the cursor; on a match, run std::from_chars over the
matched range and report success exactly when from_chars succeeds, with the
cursor advanced to the end of the regex match (even where from_chars
stopped earlier within the match). -/
def parseNumberP (s : List Char) : Option (Int × List Char) :=
  match scanNumLen s with
  | none => none
  | some len =>
    match fromCharsInt (s.take len) with
    | some (v, _) => some (v, s.drop len)
    | none => none

/-- Test for std::isxdigit. -/
def isHexDigit (c : Char) : Bool := (hexDigitVal c).isSome

/-- Loop of json::parser::parse_string (src/parser.hpp lines 160-204) for a
growable std::string target (string_extent_v is unbounded, so every
character is written; no terminating NUL is appended).  Unknown escapes
fail (the default case of the switch); a u escape requires exactly four
hexadecimal digits. -/
def pStrLoop : List Char → List Char → Option (List Char × List Char)
  | [], _ => none
  | c :: rest, acc =>
    if c = '"' then some (acc, rest)
    else if c = '\\' then
      match rest with
      | [] => none
      | e :: rest2 =>
        if e = 'u' then
          match rest2 with
          | a :: b :: c2 :: d :: rest6 =>
            if isHexDigit a ∧ isHexDigit b ∧ isHexDigit c2 ∧ isHexDigit d then
              pStrLoop rest6 (acc ++ [hexCharOf a b c2 d])
            else none
          | _ => none
        else if e = '"' then pStrLoop rest2 (acc ++ ['"'])
        else if e = '\\' then pStrLoop rest2 (acc ++ ['\\'])
        else if e = '/' then pStrLoop rest2 (acc ++ ['/'])
        else if e = 'b' then pStrLoop rest2 (acc ++ [Char.ofNat 8])
        else if e = 'f' then pStrLoop rest2 (acc ++ [Char.ofNat 12])
        else if e = 'n' then pStrLoop rest2 (acc ++ ['\n'])
        else if e = 'r' then pStrLoop rest2 (acc ++ [Char.ofNat 13])
        else if e = 't' then pStrLoop rest2 (acc ++ ['\t'])
        else none
    else pStrLoop rest (acc ++ [c])

/-- Model of json::parser::parse_string (src/parser.hpp lines 151-215):
require a quote that is not the last character, then run the loop. -/
def parseStringP (s : List Char) : Option (List Char × List Char) :=
  match s with
  | c :: rest =>
    if c = '"' then
      match rest with
      | [] => none
      | _ => pStrLoop rest []
    else none
  | [] => none

/-- Dispatch of json::parser::parse over the leaf descriptors
(src/parser.hpp lines 87-100). -/
def parsePH : DescP → List Char → Option (Val × List Char)
  | .pbool, s =>
    match parseBoolP s with
    | some (b, r) => some (.vb b, r)
    | none => none
  | .pnum, s =>
    match parseNumberP s with
    | some (n, r) => some (.vn n, r)
    | none => none
  | .pstr, s =>
    match parseStringP s with
    | some (str, r) => some (.vs str, r)
    | none => none

/-- Loop of json::parser::parse_array (src/parser.hpp lines 236-254) for a
destination of fixed extent N (a built-in array E[N] or std::array, whose
extent_v is N, src/parser.hpp lines 33-40), parametrised by the element
parser.  The loop counter n and the write guard n < N mirror lines 236 and
241-244: the parsed element is stored only while n is below the extent, so
elements beyond the capacity are parsed and discarded.  The comma after an
element is optional (line 252 only consumes one when present).  The fuel
decreases once per element; a successful element parse consumes at least
one character, so the caller's bound of the text length suffices. -/
def arrFixedLoop (pv : List Char → Option (Val × List Char)) :
    Nat → Nat → Nat → List Val → List Char → Option (List Val × List Char)
  | 0, _, _, _, _ => none
  | _ + 1, _, _, _, [] => none
  | f + 1, N, n, buf, c :: r =>
    if c = ']' then some (buf, r)
    else
      match pv (c :: r) with
      | none => none
      | some (v, r1) =>
        let buf2 := if n < N then buf.set n v else buf
        match skipWsL r1 with
        | [] => none
        | c2 :: r2 =>
          if c2 = ',' then arrFixedLoop pv f N (n + 1) buf2 (skipWsL r2)
          else arrFixedLoop pv f N (n + 1) buf2 (c2 :: r2)

/-- Model of json::parser::parse_array (src/parser.hpp lines 225-260) for a
fixed-extent destination: require an opening bracket, skip whitespace
failing at end of input, then run the loop.  The buffer is modelled as a
slot list whose first N slots are the array; passing a longer list lets
the theorems observe that slots at index N and beyond are never written. -/
def parseArrayP (pv : List Char → Option (Val × List Char)) (N : Nat)
    (buf : List Val) (s : List Char) : Option (List Val × List Char) :=
  match s with
  | c :: r =>
    if c = '[' then
      match skipWsL r with
      | [] => none
      | c2 :: r2 => arrFixedLoop pv (s.length + 1) N 0 buf (c2 :: r2)
    else none
  | [] => none

/-- Model of json::parser::parse_element (src/parser.hpp lines 386-417):
parse the current member, skip whitespace failing at end of input, then
require a comma before the next member or the closing bracket after the
last one.  The element list is the list of the member descriptors, the
member pointer of the i-th entry is modelled as slot idx + i of the
record. -/
def parseElemStepP : List DescP → Nat → List Val → List Char →
    Option (List Val × List Char)
  | [], _, _, _ => none
  | [d], idx, record, s =>
    (match parsePH d s with
     | none => none
     | some (v, r1) =>
       match skipWsL r1 with
       | [] => none
       | c2 :: r2 =>
         if c2 = ']' then some (record.set idx v, r2) else none)
  | d :: d2 :: ds, idx, record, s =>
    (match parsePH d s with
     | none => none
     | some (v, r1) =>
       match skipWsL r1 with
       | [] => none
       | c2 :: r2 =>
         if c2 = ',' then
           match skipWsL r2 with
           | [] => none
           | c3 :: r3 => parseElemStepP (d2 :: ds) (idx + 1) (record.set idx v) (c3 :: r3)
         else none)

/-- Model of json::parser::parse_elements (src/parser.hpp lines 418-428):
require an opening bracket, skip whitespace failing at end of input, then
parse the members positionally.  (An empty element list does not
instantiate in the C++ code and is modelled as failure.) -/
def parseElemsP (ds : List DescP) (record : List Val) (s : List Char) :
    Option (List Val × List Char) :=
  match s with
  | c :: r =>
    if c = '[' then
      match skipWsL r with
      | [] => none
      | c2 :: r2 => parseElemStepP ds 0 record (c2 :: r2)
    else none
  | [] => none

/-- Result of the std::optional overload of json::parser::parse.  The val
field is none when the target was marked absent (value.reset()); the rest
field is the cursor returned with success, and is none when that cursor is
the one read from the default-constructed std::smatch (see below). -/
structure OptParseRes where
  val : Option Val
  rest : Option (List Char)

/-- Model of the std::optional overload of json::parser::parse
(src/parser.hpp lines 75-85).  The regex null_re (an anchored null literal,
line 18) is searched with the two-argument std::regex_search overload: the
declared std::smatch is never passed to it, so when the literal matches the
code reads match[0].second from a match object that was never populated,
and returns that indeterminate iterator together with success; the rest
field none records this.  When the literal does not match, the parse
delegates to the inner descriptor with value.emplace(), so the value is
present. -/
def parseOptionalP (d : DescP) (s : List Char) : Option OptParseRes :=
  if headMatches nullLit s then some ⟨none, none⟩
  else
    match parsePH d s with
    | some (v, r) => some ⟨some v, some r⟩
    | none => none

/-- Model of the std::optional overload of json::stringifier::stringify
(src/stringifier.hpp lines 51-62): an absent value prints the literal null,
a present value prints through the inner descriptor's arm. -/
def stringifyOptP (inner : Val → List Char) : Option Val → List Char
  | none => nullLit
  | some v => inner v

/-- Condition on a suffix appended after a completely consumed value: it
must not start with a decimal digit (a digit would extend a numeric literal
that ended exactly at the splice point; no other token of the grammar can
be extended on the right). -/
def GoodTail (s : List Char) : Prop :=
  ∀ c, s.head? = some c → c.isDigit = false

/-- Keys built only from characters that the escape loop copies verbatim:
no quote and no backslash. -/
def PlainKey (k : List Char) : Prop :=
  ∀ c ∈ k, c ≠ '"' ∧ c ≠ '\\'


/-!
Helper lemmas about the text primitives and the fuelled interpreter.
-/

theorem skipWs_cons_nonws {c : Char} (h : isWsChar c = false) (t : List Char) :
    skipWsL (c :: t) = c :: t := by
  simp [skipWsL, List.dropWhile, h]

theorem skipWs_cons_ws {c : Char} (h : isWsChar c = true) (t : List Char) :
    skipWsL (c :: t) = skipWsL t := by
  simp [skipWsL, List.dropWhile, h]

theorem skipWs_app_ws {w : List Char} (h : ∀ c ∈ w, isWsChar c = true) (t : List Char) :
    skipWsL (w ++ t) = skipWsL t := by
  induction w with
  | nil => rfl
  | cons c w ih =>
    have hc : isWsChar c = true := h c (by simp)
    rw [List.cons_append, skipWs_cons_ws hc]
    exact ih (fun c2 hc2 => h c2 (by simp [hc2]))

theorem skipWs_decomp (s : List Char) :
    ∃ w, s = w ++ skipWsL s ∧ ∀ c ∈ w, isWsChar c = true := by
  induction s with
  | nil => exact ⟨[], rfl, by simp⟩
  | cons c s ih =>
    by_cases hc : isWsChar c = true
    · obtain ⟨w, hw, hall⟩ := ih
      refine ⟨c :: w, ?_, ?_⟩
      · rw [skipWs_cons_ws hc]
        simpa using hw
      · intro c2 hc2
        rcases List.mem_cons.mp hc2 with h | h
        · subst h; exact hc
        · exact hall c2 h
    · refine ⟨[], ?_, by simp⟩
      rw [skipWs_cons_nonws (by simpa using hc)]
      simp

theorem skipWs_head {s t : List Char} {c : Char} (h : skipWsL s = c :: t) :
    isWsChar c = false := by
  induction s with
  | nil => simp [skipWsL] at h
  | cons c2 s ih =>
    by_cases hc : isWsChar c2 = true
    · rw [skipWs_cons_ws hc] at h
      exact ih h
    · rw [skipWs_cons_nonws (by simpa using hc)] at h
      cases h
      simpa using hc

theorem skipWs_length (s : List Char) : (skipWsL s).length ≤ s.length := by
  induction s with
  | nil => simp [skipWsL]
  | cons c s ih =>
    by_cases hc : isWsChar c = true
    · rw [skipWs_cons_ws hc]
      exact Nat.le_succ_of_le ih
    · rw [skipWs_cons_nonws (by simpa using hc)]

theorem expectStr_eq {lit s r : List Char} (h : expectStr lit s = some r) :
    s = lit ++ r := by
  induction lit generalizing s with
  | nil => simp [expectStr] at h; simp [h]
  | cons c lit ih =>
    match s with
    | [] => simp [expectStr] at h
    | c2 :: s2 =>
      simp only [expectStr] at h
      by_cases hc : c2 = c
      · rw [if_pos hc] at h
        subst hc
        simp [ih h]
      · rw [if_neg hc] at h
        exact absurd h (by simp)

theorem expectStr_app (lit r : List Char) : expectStr lit (lit ++ r) = some r := by
  induction lit with
  | nil => rfl
  | cons c lit ih => simp [expectStr, ih]

theorem digitsLoop_nodigit {t : List Char} (h : GoodTail t) (a : Int) :
    digitsLoop t a = (a, t) := by
  match t with
  | [] => rfl
  | c :: t0 =>
    have hc : c.isDigit = false := h c rfl
    simp [digitsLoop, hc]

theorem digitsLoop_ext {s r : List Char} {a v : Int}
    (h : digitsLoop s a = (v, r)) :
    ∃ c, s = c ++ r ∧ ∀ t, GoodTail t → digitsLoop (c ++ t) a = (v, t) := by
  induction s generalizing a with
  | nil =>
    simp only [digitsLoop, Prod.mk.injEq] at h
    obtain ⟨rfl, rfl⟩ := h
    exact ⟨[], rfl, fun t ht => digitsLoop_nodigit ht a⟩
  | cons ch s ih =>
    by_cases hd : ch.isDigit = true
    · rw [digitsLoop, if_pos hd] at h
      obtain ⟨c, hc, ext⟩ := ih h
      refine ⟨ch :: c, by simp [hc], fun t ht => ?_⟩
      rw [List.cons_append, digitsLoop, if_pos hd]
      exact ext t ht
    · rw [digitsLoop, if_neg hd] at h
      rw [Prod.mk.injEq] at h
      obtain ⟨rfl, h2⟩ := h
      refine ⟨[], by simp [h2], fun t ht => ?_⟩
      simpa using digitsLoop_nodigit ht a

theorem digitsLoop_stop {s r : List Char} {a v : Int}
    (h : digitsLoop s a = (v, r)) : GoodTail r := by
  induction s generalizing a with
  | nil =>
    simp only [digitsLoop, Prod.mk.injEq] at h
    obtain ⟨-, rfl⟩ := h
    intro c hc
    simp at hc
  | cons ch s ih =>
    by_cases hd : ch.isDigit = true
    · rw [digitsLoop, if_pos hd] at h
      exact ih h
    · rw [digitsLoop, if_neg hd] at h
      rw [Prod.mk.injEq] at h
      obtain ⟨-, rfl⟩ := h
      intro c hc
      rw [List.head?_cons, Option.some.injEq] at hc
      subst hc
      simpa using hd

theorem goodTail_headIsDigit {l : List Char} (h : GoodTail l) :
    headIsDigit l = false := by
  cases l with
  | nil => rfl
  | cons c t => simpa [headIsDigit] using h c rfl

theorem fromCharsInt_ext {s r : List Char} {v : Int}
    (h : fromCharsInt s = some (v, r)) :
    ∃ c, c ≠ [] ∧ s = c ++ r ∧ GoodTail r ∧
      ∀ t, GoodTail t → fromCharsInt (c ++ t) = some (v, t) := by
  match s with
  | [] => simp [fromCharsInt] at h
  | ch :: rest =>
    rw [fromCharsInt] at h
    by_cases hm : ch = '-'
    · rw [if_pos hm] at h
      subst hm
      by_cases hd : headIsDigit rest = true
      · rw [if_pos hd] at h
        rcases hdl : digitsLoop rest 0 with ⟨v0, r0⟩
        rw [hdl] at h
        simp only [Option.some.injEq, Prod.mk.injEq] at h
        obtain ⟨rfl, rfl⟩ := h
        obtain ⟨dc, hdc, dext⟩ := digitsLoop_ext hdl
        have hstop : GoodTail r0 := digitsLoop_stop hdl
        rcases dc with - | ⟨c0, dc2⟩
        · rw [List.nil_append] at hdc
          subst hdc
          exact absurd hd (by simp [goodTail_headIsDigit hstop])
        · rw [hdc, List.cons_append, headIsDigit] at hd
          refine ⟨'-' :: (c0 :: dc2), by simp, by simp [hdc], hstop, fun t ht => ?_⟩
          rw [List.cons_append, fromCharsInt, if_pos rfl]
          rw [show headIsDigit ((c0 :: dc2) ++ t) = true by simpa [headIsDigit] using hd]
          rw [if_pos rfl, dext t ht]
      · rw [if_neg hd] at h
        exact absurd h (by simp)
    · rw [if_neg hm] at h
      by_cases hd : ch.isDigit = true
      · rw [if_pos hd] at h
        rcases hdl : digitsLoop (ch :: rest) 0 with ⟨v0, r0⟩
        rw [hdl] at h
        simp only [Option.some.injEq, Prod.mk.injEq] at h
        obtain ⟨rfl, rfl⟩ := h
        obtain ⟨dc, hdc, dext⟩ := digitsLoop_ext hdl
        have hstop : GoodTail r0 := digitsLoop_stop hdl
        rcases dc with - | ⟨c0, dc2⟩
        · rw [List.nil_append] at hdc
          exact absurd (hstop ch (by rw [← hdc]; rfl)) (by simp [hd])
        · rw [List.cons_append, List.cons.injEq] at hdc
          obtain ⟨rfl, hrest⟩ := hdc
          refine ⟨ch :: dc2, by simp, by simp [hrest], hstop, fun t ht => ?_⟩
          rw [List.cons_append, fromCharsInt, if_neg hm, if_pos hd]
          have := dext t ht
          rw [List.cons_append] at this
          rw [this]
      · rw [if_neg hd] at h
        exact absurd h (by simp)

theorem fromCharsInt_consumes {s r : List Char} {v : Int}
    (h : fromCharsInt s = some (v, r)) : r.length < s.length := by
  obtain ⟨c, hne, rfl, -, -⟩ := fromCharsInt_ext h
  have : 0 < c.length := List.length_pos.mpr hne
  simp only [List.length_append]
  omega

theorem parseEscLoop_ext_aux :
    ∀ n s acc k r, s.length ≤ n → parseEscLoop s acc = some (k, r) →
      ∃ c, c ≠ [] ∧ s = c ++ r ∧ ∀ t, parseEscLoop (c ++ t) acc = some (k, t) := by
  intro n
  induction n with
  | zero =>
    intro s acc k r hlen h
    match s with
    | [] => simp [parseEscLoop] at h
    | c :: rest => simp at hlen
  | succ n ih =>
    intro s acc k r hlen h
    match s with
    | [] => simp [parseEscLoop] at h
    | c :: rest =>
      rw [parseEscLoop.eq_def] at h
      simp only [] at h
      by_cases hq : c = '"'
      · rw [if_pos hq] at h
        simp only [Option.some.injEq, Prod.mk.injEq] at h
        obtain ⟨rfl, rfl⟩ := h
        subst hq
        refine ⟨['"'], by simp, rfl, fun t => ?_⟩
        rw [List.cons_append, parseEscLoop.eq_def]
        simp
      · rw [if_neg hq] at h
        by_cases hb : c = '\\'
        · rw [if_pos hb] at h
          subst hb
          match rest with
          | [] => simp at h
          | e :: rest2 =>
            simp only [] at h
            by_cases hu : e = 'u'
            · rw [if_pos hu] at h
              subst hu
              match rest2 with
              | [] => simp at h
              | [a] => simp at h
              | [a, b] => simp at h
              | [a, b, c2] => simp at h
              | a :: b :: c2 :: d :: rest6 =>
                simp only [] at h
                obtain ⟨c', hne, hceq, cext⟩ :=
                  ih rest6 (acc ++ [hexCharOf a b c2 d]) k r
                    (by simp at hlen ⊢; omega) h
                refine ⟨'\\' :: 'u' :: a :: b :: c2 :: d :: c', by simp,
                  by simp [hceq], fun t => ?_⟩
                simp only [List.cons_append]
                rw [parseEscLoop.eq_def]
                simp only [if_true, if_false, reduceIte]
                exact cext t
            · rw [if_neg hu] at h
              obtain ⟨c', hne, hceq, cext⟩ :=
                ih rest2 (acc ++ [unscape e]) k r (by simp at hlen ⊢; omega) h
              refine ⟨'\\' :: e :: c', by simp, by simp [hceq], fun t => ?_⟩
              simp only [List.cons_append]
              rw [parseEscLoop.eq_def]
              simp only [if_true, if_false, reduceIte]
              rw [if_neg hu]
              exact cext t
        · rw [if_neg hb] at h
          obtain ⟨c', hne, hceq, cext⟩ :=
            ih rest (acc ++ [c]) k r (by simp at hlen ⊢; omega) h
          refine ⟨c :: c', by simp, by simp [hceq], fun t => ?_⟩
          simp only [List.cons_append]
          rw [parseEscLoop.eq_def]
          simp only []
          rw [if_neg hq, if_neg hb]
          exact cext t

theorem parseEscLoop_ext {s acc k r : List Char}
    (h : parseEscLoop s acc = some (k, r)) :
    ∃ c, c ≠ [] ∧ s = c ++ r ∧ ∀ t, parseEscLoop (c ++ t) acc = some (k, t) :=
  parseEscLoop_ext_aux s.length s acc k r le_rfl h

theorem parseEsc_ext {s k r : List Char}
    (h : parseEscapedString s = some (k, r)) :
    ∃ c, c ≠ [] ∧ 2 ≤ c.length ∧ s = c ++ r ∧
      ∀ t, parseEscapedString (c ++ t) = some (k, t) := by
  match s with
  | [] => simp [parseEscapedString] at h
  | c0 :: rest =>
    rw [parseEscapedString.eq_def] at h
    simp only [] at h
    by_cases hq : c0 = '"'
    · rw [if_pos hq] at h
      subst hq
      obtain ⟨c', hne, hceq, cext⟩ := parseEscLoop_ext h
      have hlen : 0 < c'.length := List.length_pos.mpr hne
      refine ⟨'"' :: c', by simp, by simp; omega, by simp [hceq], fun t => ?_⟩
      rw [List.cons_append, parseEscapedString.eq_def]
      simp only [if_true, if_false, reduceIte]
      exact cext t
    · rw [if_neg hq] at h
      exact absurd h (by simp)

theorem parseEsc_consumes {s k r : List Char}
    (h : parseEscapedString s = some (k, r)) : r.length + 2 ≤ s.length := by
  obtain ⟨c, -, hc2, hceq, -⟩ := parseEsc_ext h
  rw [hceq, List.length_append]
  omega

theorem parseF_succ (f : Nat) (t : PTask) (s : List Char) :
    parseF (f + 1) t s = parseStep (parseF f) t s := rfl

theorem parseF_norm :
    ∀ f : Nat,
      (∀ d s v rem, parseF f (.val d) s = some (v, rem) →
        (∀ r, rem = some r → r.length < s.length) ∧
        ∀ g, 2 * s.length + 4 ≤ g → parseF g (.val d) s = some (v, rem)) ∧
      (∀ d acc s v rem, parseF f (.arrLoop d acc) s = some (v, rem) →
        (∀ r, rem = some r → r.length < s.length) ∧
        ∀ g, 2 * s.length + 5 ≤ g → parseF g (.arrLoop d acc) s = some (v, rem)) ∧
      (∀ d acc s v rem, parseF f (.objLoop d acc) s = some (v, rem) →
        (∀ r, rem = some r → r.length < s.length) ∧
        ∀ g, 2 * s.length + 5 ≤ g → parseF g (.objLoop d acc) s = some (v, rem)) := by
  intro f
  induction f with
  | zero =>
    refine ⟨fun d s v rem h => ?_, fun d acc s v rem h => ?_,
      fun d acc s v rem h => ?_⟩ <;> simp [parseF] at h
  | succ f ih =>
    obtain ⟨ihv, iha, iho⟩ := ih
    refine ⟨?_, ?_, ?_⟩
    · -- val task
      intro d s v rem h
      rw [parseF_succ] at h
      cases d with
      | boolean =>
        rw [parseStep] at h
        rcases het : expectStr trueLit s with - | r1
        · rw [het] at h
          rcases hef : expectStr falseLit s with - | r2
          · rw [hef] at h
            simp at h
          · rw [hef] at h
            simp only [Option.some.injEq, Prod.mk.injEq] at h
            obtain ⟨rfl, rfl⟩ := h
            have hs : s = falseLit ++ r2 := expectStr_eq hef
            constructor
            · intro r hr
              injection hr with hr
              subst hr
              simp [hs, falseLit]
              omega
            · intro g hg
              obtain ⟨g0, rfl⟩ : ∃ g0, g = g0 + 1 := ⟨g - 1, by omega⟩
              rw [parseF_succ, parseStep, het, hef]
        · rw [het] at h
          simp only [Option.some.injEq, Prod.mk.injEq] at h
          obtain ⟨rfl, rfl⟩ := h
          have hs : s = trueLit ++ r1 := expectStr_eq het
          constructor
          · intro r hr
            injection hr with hr
            subst hr
            simp [hs, trueLit]
            omega
          · intro g hg
            obtain ⟨g0, rfl⟩ : ∃ g0, g = g0 + 1 := ⟨g - 1, by omega⟩
            rw [parseF_succ, parseStep, het]
      | number =>
        rw [parseStep] at h
        rcases hfc : fromCharsInt s with - | ⟨n, r1⟩
        · rw [hfc] at h
          simp at h
        · rw [hfc] at h
          simp only [Option.some.injEq, Prod.mk.injEq] at h
          obtain ⟨rfl, rfl⟩ := h
          constructor
          · intro r hr
            injection hr with hr
            subst hr
            exact fromCharsInt_consumes hfc
          · intro g hg
            obtain ⟨g0, rfl⟩ : ∃ g0, g = g0 + 1 := ⟨g - 1, by omega⟩
            rw [parseF_succ, parseStep, hfc]
      | string =>
        rw [parseStep] at h
        rcases hes : parseEscapedString s with - | ⟨str, r1⟩
        · rw [hes] at h
          simp at h
        · rw [hes] at h
          simp only [Option.some.injEq, Prod.mk.injEq] at h
          obtain ⟨rfl, rfl⟩ := h
          constructor
          · intro r hr
            injection hr with hr
            subst hr
            have := parseEsc_consumes hes
            omega
          · intro g hg
            obtain ⟨g0, rfl⟩ : ∃ g0, g = g0 + 1 := ⟨g - 1, by omega⟩
            rw [parseF_succ, parseStep, hes]
      | array d2 =>
        rcases s with - | ⟨c, r⟩
        · rw [parseStep] at h
          simp at h
        · rw [parseStep] at h
          by_cases hbr : c = '['
          · rw [if_pos hbr] at h
            obtain ⟨hcons, hfuel⟩ := iha d2 [] (skipWsL r) v rem h
            have hsl := skipWs_length r
            constructor
            · intro r2 hr2
              have := hcons r2 hr2
              simp only [List.length_cons]
              omega
            · intro g hg
              obtain ⟨g0, rfl⟩ : ∃ g0, g = g0 + 1 := ⟨g - 1, by omega⟩
              rw [parseF_succ, parseStep, if_pos hbr]
              apply hfuel
              simp only [List.length_cons] at hg
              omega
          · rw [if_neg hbr] at h
            simp at h
      | object d2 =>
        rcases s with - | ⟨c, r⟩
        · rw [parseStep] at h
          simp at h
        · rw [parseStep] at h
          by_cases hbr : c = '{'
          · rw [if_pos hbr] at h
            obtain ⟨hcons, hfuel⟩ := iho d2 [] (skipWsL r) v rem h
            have hsl := skipWs_length r
            constructor
            · intro r2 hr2
              have := hcons r2 hr2
              simp only [List.length_cons]
              omega
            · intro g hg
              obtain ⟨g0, rfl⟩ : ∃ g0, g = g0 + 1 := ⟨g - 1, by omega⟩
              rw [parseF_succ, parseStep, if_pos hbr]
              apply hfuel
              simp only [List.length_cons] at hg
              omega
          · rw [if_neg hbr] at h
            simp at h
    · -- arrLoop task
      intro d acc s v rem h
      rw [parseF_succ] at h
      rcases s with - | ⟨c, r⟩
      · rw [parseStep] at h
        simp only [Option.some.injEq, Prod.mk.injEq] at h
        obtain ⟨rfl, rfl⟩ := h
        constructor
        · intro r hr
          simp at hr
        · intro g hg
          obtain ⟨g0, rfl⟩ : ∃ g0, g = g0 + 1 := ⟨g - 1, by omega⟩
          rw [parseF_succ, parseStep]
      · rw [parseStep] at h
        by_cases hcb : c = ']'
        · rw [if_pos hcb] at h
          simp only [Option.some.injEq, Prod.mk.injEq] at h
          obtain ⟨rfl, rfl⟩ := h
          constructor
          · intro r2 hr2
            injection hr2 with hr2
            subst hr2
            simp
          · intro g hg
            obtain ⟨g0, rfl⟩ : ∃ g0, g = g0 + 1 := ⟨g - 1, by omega⟩
            rw [parseF_succ, parseStep, if_pos hcb]
        · rw [if_neg hcb] at h
          rcases hel : parseF f (.val d) (c :: r) with - | ⟨v1, rem1⟩
          · rw [hel] at h
            simp at h
          · rw [hel] at h
            rcases rem1 with - | r1
            · simp at h
            · simp only [] at h
              obtain ⟨hconsV, hfuelV⟩ := ihv d (c :: r) v1 (some r1) hel
              have hr1 : r1.length < r.length + 1 := by simpa using hconsV r1 rfl
              rcases hsw : skipWsL r1 with - | ⟨c2, r3⟩
              · rw [hsw] at h
                simp at h
              · rw [hsw] at h
                simp only [] at h
                have hr3 : r3.length < r1.length := by
                  have h2 := skipWs_length r1
                  rw [hsw] at h2
                  simp only [List.length_cons] at h2
                  omega
                by_cases hc2 : c2 = ','
                · rw [if_pos hc2] at h
                  obtain ⟨hconsL, hfuelL⟩ := iha d (acc ++ [v1]) (skipWsL r3) v rem h
                  have hsw3 := skipWs_length r3
                  constructor
                  · intro r4 hr4
                    have := hconsL r4 hr4
                    simp only [List.length_cons]
                    omega
                  · intro g hg
                    obtain ⟨g0, rfl⟩ : ∃ g0, g = g0 + 1 := ⟨g - 1, by omega⟩
                    simp only [List.length_cons] at hg
                    rw [parseF_succ, parseStep, if_neg hcb,
                      hfuelV g0 (by simp only [List.length_cons]; omega)]
                    simp only []
                    rw [hsw]
                    simp only []
                    rw [if_pos hc2]
                    exact hfuelL g0 (by omega)
                · by_cases hc2b : c2 = ']'
                  · rw [if_neg hc2, if_pos hc2b] at h
                    simp only [Option.some.injEq, Prod.mk.injEq] at h
                    obtain ⟨rfl, rfl⟩ := h
                    constructor
                    · intro r4 hr4
                      injection hr4 with hr4
                      subst hr4
                      simp only [List.length_cons]
                      omega
                    · intro g hg
                      obtain ⟨g0, rfl⟩ : ∃ g0, g = g0 + 1 := ⟨g - 1, by omega⟩
                      simp only [List.length_cons] at hg
                      rw [parseF_succ, parseStep, if_neg hcb,
                        hfuelV g0 (by simp only [List.length_cons]; omega)]
                      simp only []
                      rw [hsw]
                      simp only []
                      rw [if_neg hc2, if_pos hc2b]
                  · rw [if_neg hc2, if_neg hc2b] at h
                    simp at h
    · -- objLoop task
      intro d acc s v rem h
      rw [parseF_succ] at h
      rcases s with - | ⟨c, r⟩
      · rw [parseStep] at h
        simp only [Option.some.injEq, Prod.mk.injEq] at h
        obtain ⟨rfl, rfl⟩ := h
        constructor
        · intro r hr
          simp at hr
        · intro g hg
          obtain ⟨g0, rfl⟩ : ∃ g0, g = g0 + 1 := ⟨g - 1, by omega⟩
          rw [parseF_succ, parseStep]
      · rw [parseStep] at h
        by_cases hcb : c = '}'
        · rw [if_pos hcb] at h
          simp only [Option.some.injEq, Prod.mk.injEq] at h
          obtain ⟨rfl, rfl⟩ := h
          constructor
          · intro r2 hr2
            injection hr2 with hr2
            subst hr2
            simp
          · intro g hg
            obtain ⟨g0, rfl⟩ : ∃ g0, g = g0 + 1 := ⟨g - 1, by omega⟩
            rw [parseF_succ, parseStep, if_pos hcb]
        · rw [if_neg hcb] at h
          rcases hk : parseEscapedString (c :: r) with - | ⟨k, r1⟩
          · rw [hk] at h
            simp at h
          · rw [hk] at h
            simp only [] at h
            have hkc := parseEsc_consumes hk
            simp only [List.length_cons] at hkc
            rcases hsw : skipWsL r1 with - | ⟨c2, r2⟩
            · rw [hsw] at h
              simp at h
            · rw [hsw] at h
              simp only [] at h
              have hr2 : r2.length < r1.length := by
                have h2 := skipWs_length r1
                rw [hsw] at h2
                simp only [List.length_cons] at h2
                omega
              by_cases hc2 : c2 = ':'
              · rw [if_pos hc2] at h
                rcases hel : parseF f (.val d) (skipWsL r2) with - | ⟨v1, rem1⟩
                · rw [hel] at h
                  simp at h
                · rw [hel] at h
                  rcases rem1 with - | r3
                  · simp at h
                  · simp only [] at h
                    obtain ⟨hconsV, hfuelV⟩ := ihv d (skipWsL r2) v1 (some r3) hel
                    have hswr2 := skipWs_length r2
                    have hr3 : r3.length < (skipWsL r2).length := hconsV r3 rfl
                    rcases hsw3 : skipWsL r3 with - | ⟨c4, r5⟩
                    · rw [hsw3] at h
                      simp at h
                    · rw [hsw3] at h
                      simp only [] at h
                      have hr5 : r5.length < r3.length := by
                        have h2 := skipWs_length r3
                        rw [hsw3] at h2
                        simp only [List.length_cons] at h2
                        omega
                      by_cases hc4 : c4 = ','
                      · rw [if_pos hc4] at h
                        obtain ⟨hconsL, hfuelL⟩ :=
                          iho d (emplaceA acc k v1) (skipWsL r5) v rem h
                        have hsw5 := skipWs_length r5
                        constructor
                        · intro r6 hr6
                          have := hconsL r6 hr6
                          simp only [List.length_cons]
                          omega
                        · intro g hg
                          obtain ⟨g0, rfl⟩ : ∃ g0, g = g0 + 1 := ⟨g - 1, by omega⟩
                          simp only [List.length_cons] at hg
                          rw [parseF_succ, parseStep, if_neg hcb, hk]
                          simp only []
                          rw [hsw]
                          simp only []
                          rw [if_pos hc2, hfuelV g0 (by omega)]
                          simp only []
                          rw [hsw3]
                          simp only []
                          rw [if_pos hc4]
                          exact hfuelL g0 (by omega)
                      · by_cases hc4b : c4 = '}'
                        · rw [if_neg hc4, if_pos hc4b] at h
                          simp only [Option.some.injEq, Prod.mk.injEq] at h
                          obtain ⟨rfl, rfl⟩ := h
                          constructor
                          · intro r6 hr6
                            injection hr6 with hr6
                            subst hr6
                            simp only [List.length_cons]
                            omega
                          · intro g hg
                            obtain ⟨g0, rfl⟩ : ∃ g0, g = g0 + 1 := ⟨g - 1, by omega⟩
                            simp only [List.length_cons] at hg
                            rw [parseF_succ, parseStep, if_neg hcb, hk]
                            simp only []
                            rw [hsw]
                            simp only []
                            rw [if_pos hc2, hfuelV g0 (by omega)]
                            simp only []
                            rw [hsw3]
                            simp only []
                            rw [if_neg hc4, if_pos hc4b]
                        · rw [if_neg hc4, if_neg hc4b] at h
                          simp at h
              · rw [if_neg hc2] at h
                simp at h

theorem wsNotDigit {c : Char} (h : isWsChar c = true) : c.isDigit = false := by
  simp only [isWsChar, Bool.or_eq_true, decide_eq_true_eq] at h
  rcases h with ((((h | h) | h) | h) | h) | h <;> subst h <;> decide

theorem skipWs_stops {x t : List Char} (hne : x ≠ [])
    (hh : ∀ c, x.head? = some c → isWsChar c = false) :
    skipWsL (x ++ t) = x ++ t := by
  match x, hne with
  | x0 :: x2, _ =>
    rw [List.cons_append]
    exact skipWs_cons_nonws (hh x0 rfl) _

theorem skipWs_head_app {A x r : List Char} (h : skipWsL A = x ++ r) (hne : x ≠ []) :
    ∀ c, x.head? = some c → isWsChar c = false := by
  match x, hne with
  | x0 :: x2, _ =>
    intro c hc
    rw [List.head?_cons, Option.some.injEq] at hc
    subst hc
    rw [List.cons_append] at h
    exact skipWs_head h

theorem goodTail_wsSep {w : List Char} (hws : ∀ c ∈ w, isWsChar c = true)
    {c0 : Char} (hc0 : c0.isDigit = false) (rest : List Char) :
    GoodTail (w ++ c0 :: rest) := by
  intro c hc
  match w with
  | [] =>
    rw [List.nil_append, List.head?_cons, Option.some.injEq] at hc
    subst hc
    exact hc0
  | w0 :: w2 =>
    rw [List.cons_append, List.head?_cons, Option.some.injEq] at hc
    subst hc
    exact wsNotDigit (hws w0 (by simp))

theorem appendNe {c r s : List Char} (hs : s = c ++ r) (hlt : r.length < s.length) :
    c ≠ [] := by
  intro h
  subst h
  rw [List.nil_append] at hs
  subst hs
  omega

theorem parseF_ext :
    ∀ f : Nat,
      (∀ d s v r, parseF f (.val d) s = some (v, some r) →
        ∃ c, s = c ++ r ∧
          ∀ t, GoodTail t → parseF f (.val d) (c ++ t) = some (v, some t)) ∧
      (∀ d acc s v r, parseF f (.arrLoop d acc) s = some (v, some r) →
        ∃ c, s = c ++ r ∧
          ∀ t, GoodTail t → parseF f (.arrLoop d acc) (c ++ t) = some (v, some t)) ∧
      (∀ d acc s v r, parseF f (.objLoop d acc) s = some (v, some r) →
        ∃ c, s = c ++ r ∧
          ∀ t, GoodTail t → parseF f (.objLoop d acc) (c ++ t) = some (v, some t)) := by
  intro f
  induction f with
  | zero =>
    refine ⟨fun d s v r h => ?_, fun d acc s v r h => ?_,
      fun d acc s v r h => ?_⟩ <;> simp [parseF] at h
  | succ f ih =>
    obtain ⟨ihv, iha, iho⟩ := ih
    refine ⟨?_, ?_, ?_⟩
    · -- val task
      intro d s v r h
      rw [parseF_succ] at h
      cases d with
      | boolean =>
        rw [parseStep] at h
        rcases het : expectStr trueLit s with - | r1
        · rw [het] at h
          rcases hef : expectStr falseLit s with - | r2
          · rw [hef] at h
            simp at h
          · rw [hef] at h
            simp only [Option.some.injEq, Prod.mk.injEq] at h
            obtain ⟨rfl, hrem⟩ := h
            subst hrem
            refine ⟨falseLit, expectStr_eq hef, fun t ht => ?_⟩
            rw [parseF_succ, parseStep]
            have hT : expectStr trueLit (falseLit ++ t) = none := rfl
            rw [hT, expectStr_app]
        · rw [het] at h
          simp only [Option.some.injEq, Prod.mk.injEq] at h
          obtain ⟨rfl, hrem⟩ := h
          subst hrem
          refine ⟨trueLit, expectStr_eq het, fun t ht => ?_⟩
          rw [parseF_succ, parseStep, expectStr_app]
      | number =>
        rw [parseStep] at h
        rcases hfc : fromCharsInt s with - | ⟨n, r1⟩
        · rw [hfc] at h
          simp at h
        · rw [hfc] at h
          simp only [Option.some.injEq, Prod.mk.injEq] at h
          obtain ⟨rfl, hrem⟩ := h
          subst hrem
          obtain ⟨c, -, hceq, -, cext⟩ := fromCharsInt_ext hfc
          refine ⟨c, hceq, fun t ht => ?_⟩
          rw [parseF_succ, parseStep, cext t ht]
      | string =>
        rw [parseStep] at h
        rcases hes : parseEscapedString s with - | ⟨str, r1⟩
        · rw [hes] at h
          simp at h
        · rw [hes] at h
          simp only [Option.some.injEq, Prod.mk.injEq] at h
          obtain ⟨rfl, hrem⟩ := h
          subst hrem
          obtain ⟨c, -, -, hceq, cext⟩ := parseEsc_ext hes
          refine ⟨c, hceq, fun t ht => ?_⟩
          rw [parseF_succ, parseStep, cext t]
      | array d2 =>
        rcases s with - | ⟨c, rest⟩
        · rw [parseStep] at h
          simp at h
        · rw [parseStep] at h
          by_cases hbr : c = '['
          · rw [if_pos hbr] at h
            subst hbr
            obtain ⟨c1, hc1, ext1⟩ := iha d2 [] (skipWsL rest) v r h
            have hc1ne : c1 ≠ [] := by
              refine appendNe hc1 ?_
              have := ((parseF_norm f).2.1 d2 [] (skipWsL rest) v (some r) h).1 r rfl
              omega
            have hc1h := skipWs_head_app hc1 hc1ne
            obtain ⟨w, hw, hwws⟩ := skipWs_decomp rest
            refine ⟨'[' :: (w ++ c1), ?_, fun t ht => ?_⟩
            · rw [hw, hc1]
              simp [List.append_assoc]
            · rw [parseF_succ]
              have hshape : ('[' :: (w ++ c1)) ++ t = '[' :: (w ++ (c1 ++ t)) := by
                simp [List.append_assoc]
              rw [hshape, parseStep, if_pos rfl, skipWs_app_ws hwws,
                skipWs_stops hc1ne hc1h]
              exact ext1 t ht
          · rw [if_neg hbr] at h
            simp at h
      | object d2 =>
        rcases s with - | ⟨c, rest⟩
        · rw [parseStep] at h
          simp at h
        · rw [parseStep] at h
          by_cases hbr : c = '{'
          · rw [if_pos hbr] at h
            subst hbr
            obtain ⟨c1, hc1, ext1⟩ := iho d2 [] (skipWsL rest) v r h
            have hc1ne : c1 ≠ [] := by
              refine appendNe hc1 ?_
              have := ((parseF_norm f).2.2 d2 [] (skipWsL rest) v (some r) h).1 r rfl
              omega
            have hc1h := skipWs_head_app hc1 hc1ne
            obtain ⟨w, hw, hwws⟩ := skipWs_decomp rest
            refine ⟨'{' :: (w ++ c1), ?_, fun t ht => ?_⟩
            · rw [hw, hc1]
              simp [List.append_assoc]
            · rw [parseF_succ]
              have hshape : ('{' :: (w ++ c1)) ++ t = '{' :: (w ++ (c1 ++ t)) := by
                simp [List.append_assoc]
              rw [hshape, parseStep, if_pos rfl, skipWs_app_ws hwws,
                skipWs_stops hc1ne hc1h]
              exact ext1 t ht
          · rw [if_neg hbr] at h
            simp at h
    · -- arrLoop task
      intro d acc s v r h
      rw [parseF_succ] at h
      rcases s with - | ⟨c, rest⟩
      · rw [parseStep] at h
        simp at h
      · rw [parseStep] at h
        by_cases hcb : c = ']'
        · rw [if_pos hcb] at h
          subst hcb
          simp only [Option.some.injEq, Prod.mk.injEq] at h
          obtain ⟨rfl, hrem⟩ := h
          subst hrem
          refine ⟨[']'], rfl, fun t ht => ?_⟩
          rw [parseF_succ]
          rw [show ([']'] : List Char) ++ t = ']' :: t from rfl]
          rw [parseStep, if_pos rfl]
        · rw [if_neg hcb] at h
          rcases hel : parseF f (.val d) (c :: rest) with - | ⟨v1, rem1⟩
          · rw [hel] at h
            simp at h
          · rw [hel] at h
            rcases rem1 with - | r1
            · simp at h
            · simp only [] at h
              obtain ⟨c1, hc1, ext1⟩ := ihv d (c :: rest) v1 r1 hel
              have hc1ne : c1 ≠ [] := by
                refine appendNe hc1 ?_
                have := ((parseF_norm f).1 d (c :: rest) v1 (some r1) hel).1 r1 rfl
                omega
              obtain ⟨w1, hw1, hw1ws⟩ := skipWs_decomp r1
              rcases hsw : skipWsL r1 with - | ⟨c2, r3⟩
              · rw [hsw] at h
                simp at h
              · rw [hsw] at h
                simp only [] at h
                rw [hsw] at hw1
                by_cases hc2 : c2 = ','
                · rw [if_pos hc2] at h
                  subst hc2
                  obtain ⟨c4, hc4, ext4⟩ := iha d (acc ++ [v1]) (skipWsL r3) v r h
                  have hc4ne : c4 ≠ [] := by
                    refine appendNe hc4 ?_
                    have := ((parseF_norm f).2.1 d (acc ++ [v1]) (skipWsL r3) v
                      (some r) h).1 r rfl
                    omega
                  have hc4h := skipWs_head_app hc4 hc4ne
                  obtain ⟨w3, hw3, hw3ws⟩ := skipWs_decomp r3
                  rw [hc4] at hw3
                  obtain ⟨c10, c1t, rfl⟩ : ∃ c10 c1t, c1 = c10 :: c1t := by
                    match c1, hc1ne with
                    | c10 :: c1t, _ => exact ⟨c10, c1t, rfl⟩
                  rw [List.cons_append] at hc1
                  injection hc1 with hc10 hrest
                  subst hc10
                  refine ⟨c :: (c1t ++ (w1 ++ ',' :: (w3 ++ c4))), ?_, fun t ht => ?_⟩
                  · rw [hrest, hw1, hw3]
                    simp [List.append_assoc]
                  · rw [parseF_succ]
                    rw [show (c :: (c1t ++ (w1 ++ ',' :: (w3 ++ c4)))) ++ t =
                      c :: (c1t ++ (w1 ++ ',' :: (w3 ++ (c4 ++ t)))) by
                        simp [List.append_assoc]]
                    rw [parseStep, if_neg hcb]
                    have he1 : parseF f (.val d)
                        (c :: (c1t ++ (w1 ++ ',' :: (w3 ++ (c4 ++ t))))) =
                        some (v1, some (w1 ++ ',' :: (w3 ++ (c4 ++ t)))) := by
                      have hgt : GoodTail (w1 ++ ',' :: (w3 ++ (c4 ++ t))) :=
                        goodTail_wsSep hw1ws (by decide) _
                      have := ext1 (w1 ++ ',' :: (w3 ++ (c4 ++ t))) hgt
                      rw [List.cons_append] at this
                      exact this
                    rw [he1]
                    simp only []
                    rw [skipWs_app_ws hw1ws, skipWs_cons_nonws (by decide)]
                    simp only []
                    simp only [if_true]
                    rw [skipWs_app_ws hw3ws, skipWs_stops hc4ne hc4h]
                    exact ext4 t ht
                · by_cases hc2b : c2 = ']'
                  · rw [if_neg hc2, if_pos hc2b] at h
                    subst hc2b
                    simp only [Option.some.injEq, Prod.mk.injEq] at h
                    obtain ⟨rfl, hrem⟩ := h
                    subst hrem
                    obtain ⟨c10, c1t, rfl⟩ : ∃ c10 c1t, c1 = c10 :: c1t := by
                      match c1, hc1ne with
                      | c10 :: c1t, _ => exact ⟨c10, c1t, rfl⟩
                    rw [List.cons_append] at hc1
                    injection hc1 with hc10 hrest
                    subst hc10
                    refine ⟨c :: (c1t ++ (w1 ++ [']'])), ?_, fun t ht => ?_⟩
                    · rw [hrest, hw1]
                      simp [List.append_assoc]
                    · rw [parseF_succ]
                      rw [show (c :: (c1t ++ (w1 ++ [']']))) ++ t =
                        c :: (c1t ++ (w1 ++ ']' :: t)) by simp [List.append_assoc]]
                      rw [parseStep, if_neg hcb]
                      have he1 : parseF f (.val d)
                          (c :: (c1t ++ (w1 ++ ']' :: t))) =
                          some (v1, some (w1 ++ ']' :: t)) := by
                        have hgt : GoodTail (w1 ++ ']' :: t) :=
                          goodTail_wsSep hw1ws (by decide) _
                        have := ext1 (w1 ++ ']' :: t) hgt
                        rw [List.cons_append] at this
                        exact this
                      rw [he1]
                      simp only []
                      rw [skipWs_app_ws hw1ws, skipWs_cons_nonws (by decide)]
                      simp only []
                      rw [if_neg hc2]
                      simp only [if_true]
                  · rw [if_neg hc2, if_neg hc2b] at h
                    simp at h
    · -- objLoop task
      intro d acc s v r h
      rw [parseF_succ] at h
      rcases s with - | ⟨c, rest⟩
      · rw [parseStep] at h
        simp at h
      · rw [parseStep] at h
        by_cases hcb : c = '}'
        · rw [if_pos hcb] at h
          subst hcb
          simp only [Option.some.injEq, Prod.mk.injEq] at h
          obtain ⟨rfl, hrem⟩ := h
          subst hrem
          refine ⟨['}'], rfl, fun t ht => ?_⟩
          rw [parseF_succ]
          rw [show (['}'] : List Char) ++ t = '}' :: t from rfl]
          rw [parseStep, if_pos rfl]
        · rw [if_neg hcb] at h
          rcases hk : parseEscapedString (c :: rest) with - | ⟨k, r1⟩
          · rw [hk] at h
            simp at h
          · rw [hk] at h
            simp only [] at h
            obtain ⟨ck, hckne, hck2, hckeq, extk⟩ := parseEsc_ext hk
            obtain ⟨w1, hw1, hw1ws⟩ := skipWs_decomp r1
            rcases hsw : skipWsL r1 with - | ⟨c2, r2⟩
            · rw [hsw] at h
              simp at h
            · rw [hsw] at h
              simp only [] at h
              rw [hsw] at hw1
              by_cases hc2 : c2 = ':'
              · rw [if_pos hc2] at h
                subst hc2
                rcases hel : parseF f (.val d) (skipWsL r2) with - | ⟨v1, rem1⟩
                · rw [hel] at h
                  simp at h
                · rw [hel] at h
                  rcases rem1 with - | r3
                  · simp at h
                  · simp only [] at h
                    obtain ⟨cv, hcv, extv⟩ := ihv d (skipWsL r2) v1 r3 hel
                    have hcvne : cv ≠ [] := by
                      refine appendNe hcv ?_
                      have := ((parseF_norm f).1 d (skipWsL r2) v1 (some r3) hel).1
                        r3 rfl
                      omega
                    have hcvh := skipWs_head_app hcv hcvne
                    obtain ⟨w2, hw2, hw2ws⟩ := skipWs_decomp r2
                    rw [hcv] at hw2
                    obtain ⟨w3, hw3, hw3ws⟩ := skipWs_decomp r3
                    rcases hsw3 : skipWsL r3 with - | ⟨c4, r5⟩
                    · rw [hsw3] at h
                      simp at h
                    · rw [hsw3] at h
                      simp only [] at h
                      rw [hsw3] at hw3
                      obtain ⟨ck0, ckt, rfl⟩ : ∃ ck0 ckt, ck = ck0 :: ckt := by
                        match ck, hckne with
                        | ck0 :: ckt, _ => exact ⟨ck0, ckt, rfl⟩
                      rw [List.cons_append] at hckeq
                      injection hckeq with hck0 hrest
                      subst hck0
                      by_cases hc4 : c4 = ','
                      · rw [if_pos hc4] at h
                        subst hc4
                        obtain ⟨co, hco, exto⟩ :=
                          iho d (emplaceA acc k v1) (skipWsL r5) v r h
                        have hcone : co ≠ [] := by
                          refine appendNe hco ?_
                          have := ((parseF_norm f).2.2 d (emplaceA acc k v1)
                            (skipWsL r5) v (some r) h).1 r rfl
                          omega
                        have hcoh := skipWs_head_app hco hcone
                        obtain ⟨w5, hw5, hw5ws⟩ := skipWs_decomp r5
                        rw [hco] at hw5
                        refine ⟨c :: (ckt ++ (w1 ++ ':' :: (w2 ++ (cv ++
                          (w3 ++ ',' :: (w5 ++ co)))))), ?_, fun t ht => ?_⟩
                        · rw [hrest, hw1, hw2, hw3, hw5]
                          simp [List.append_assoc]
                        · rw [parseF_succ]
                          rw [show (c :: (ckt ++ (w1 ++ ':' :: (w2 ++ (cv ++
                              (w3 ++ ',' :: (w5 ++ co))))))) ++ t =
                            c :: (ckt ++ (w1 ++ ':' :: (w2 ++ (cv ++
                              (w3 ++ ',' :: (w5 ++ (co ++ t))))))) by
                            simp [List.append_assoc]]
                          rw [parseStep, if_neg hcb]
                          have hek : parseEscapedString
                              (c :: (ckt ++ (w1 ++ ':' :: (w2 ++ (cv ++
                                (w3 ++ ',' :: (w5 ++ (co ++ t)))))))) =
                              some (k, w1 ++ ':' :: (w2 ++ (cv ++
                                (w3 ++ ',' :: (w5 ++ (co ++ t)))))) := by
                            have := extk (w1 ++ ':' :: (w2 ++ (cv ++
                              (w3 ++ ',' :: (w5 ++ (co ++ t))))))
                            rw [List.cons_append] at this
                            exact this
                          rw [hek]
                          simp only []
                          rw [skipWs_app_ws hw1ws, skipWs_cons_nonws (by decide)]
                          simp only []
                          simp only [if_true]
                          have hev : parseF f (.val d)
                              (skipWsL (w2 ++ (cv ++ (w3 ++ ',' :: (w5 ++
                                (co ++ t)))))) =
                              some (v1, some (w3 ++ ',' :: (w5 ++ (co ++ t)))) := by
                            rw [skipWs_app_ws hw2ws, skipWs_stops hcvne hcvh]
                            have hgt : GoodTail (w3 ++ ',' :: (w5 ++ (co ++ t))) :=
                              goodTail_wsSep hw3ws (by decide) _
                            exact extv (w3 ++ ',' :: (w5 ++ (co ++ t))) hgt
                          rw [hev]
                          simp only []
                          rw [skipWs_app_ws hw3ws, skipWs_cons_nonws (by decide)]
                          simp only []
                          simp only [if_true]
                          rw [skipWs_app_ws hw5ws, skipWs_stops hcone hcoh]
                          exact exto t ht
                      · by_cases hc4b : c4 = '}'
                        · rw [if_neg hc4, if_pos hc4b] at h
                          subst hc4b
                          simp only [Option.some.injEq, Prod.mk.injEq] at h
                          obtain ⟨rfl, hrem⟩ := h
                          subst hrem
                          refine ⟨c :: (ckt ++ (w1 ++ ':' :: (w2 ++ (cv ++
                            (w3 ++ ['}']))))), ?_, fun t ht => ?_⟩
                          · rw [hrest, hw1, hw2, hw3]
                            simp [List.append_assoc]
                          · rw [parseF_succ]
                            rw [show (c :: (ckt ++ (w1 ++ ':' :: (w2 ++ (cv ++
                                (w3 ++ ['}'])))))) ++ t =
                              c :: (ckt ++ (w1 ++ ':' :: (w2 ++ (cv ++
                                (w3 ++ '}' :: t))))) by simp [List.append_assoc]]
                            rw [parseStep, if_neg hcb]
                            have hek : parseEscapedString
                                (c :: (ckt ++ (w1 ++ ':' :: (w2 ++ (cv ++
                                  (w3 ++ '}' :: t)))))) =
                                some (k, w1 ++ ':' :: (w2 ++ (cv ++
                                  (w3 ++ '}' :: t)))) := by
                              have := extk (w1 ++ ':' :: (w2 ++ (cv ++
                                (w3 ++ '}' :: t))))
                              rw [List.cons_append] at this
                              exact this
                            rw [hek]
                            simp only []
                            rw [skipWs_app_ws hw1ws, skipWs_cons_nonws (by decide)]
                            simp only []
                            simp only [if_true]
                            have hev : parseF f (.val d)
                                (skipWsL (w2 ++ (cv ++ (w3 ++ '}' :: t)))) =
                                some (v1, some (w3 ++ '}' :: t)) := by
                              rw [skipWs_app_ws hw2ws, skipWs_stops hcvne hcvh]
                              have hgt : GoodTail (w3 ++ '}' :: t) :=
                                goodTail_wsSep hw3ws (by decide) _
                              exact extv (w3 ++ '}' :: t) hgt
                            rw [hev]
                            simp only []
                            rw [skipWs_app_ws hw3ws, skipWs_cons_nonws (by decide)]
                            simp only []
                            rw [if_neg hc4]
                            simp only [if_true]
                        · rw [if_neg hc4, if_neg hc4b] at h
                          simp at h
              · rw [if_neg hc2] at h
                simp at h

theorem strF_succ (f : Nat) (d : Desc) (t : StrTask) :
    strF (f + 1) d t = strStep (strF f) d t := rfl

theorem parseF_val_rb (f : Nat) (d : Desc) (t : List Char) :
    parseF f (.val d) (']' :: t) = none := by
  cases f with
  | zero => rfl
  | succ f => cases d <;> rfl

theorem fromCharsInt_plus (t : List Char) : fromCharsInt ('+' :: t) = none := by
  rw [fromCharsInt, if_neg (by decide), if_neg (by decide)]

/-- Claim C3 (code_bug).  Round-trip fails for Object descriptors: the
object writer of impl::Stringify (src/json.hpp lines 347-385) puts its own
quote characters around write_escaped_string, which already emits
surrounding quotes, so the dense stringification of the map with the single
entry a maps-to 1 under Object(Number) is the 9-character text with the key
quoted twice, and parsing that text back under the same descriptor fails at
the doubled quote.  For contrast, the same map written with correctly
single-quoted keys parses back successfully. -/
theorem c3_thm :
    (∀ g, stringifyImplDense (g + 8) (.object .number) (.vo [("a".toList, .vn 1)]) =
      "\x7b\"\"a\"\":1\x7d".toList) ∧
    parseImpl (.object .number) ("\x7b\"\"a\"\":1\x7d".toList) = none ∧
    parseImpl (.object .number) ("\x7b\"a\":1\x7d".toList) =
      some (.vo [("a".toList, .vn 1)], some []) := by
  refine ⟨?_, rfl, rfl⟩
  intro g
  show strF (g + 8) (.object .number) (.one (.vo [("a".toList, .vn 1)])) = _
  rw [show g + 8 = g + 7 + 1 by omega, strF_succ]
  simp only [strStep]
  rw [show g + 7 = g + 6 + 1 by omega, strF_succ]
  simp only [strStep]
  rw [show g + 6 = g + 5 + 1 by omega, strF_succ]
  simp only [strStep]
  rfl

/-- Claim C4 (code_bug).  The regex bool_re of src/parser.hpp line 19
anchors only its first alternative, so json::parser::parse_boolean succeeds
on the input xfalse although neither the literal true nor the literal false
occurs at the current position: it matches false at offset 1, stores the
value false and advances the cursor past offset 6.  The impl revision of
the Boolean parse (src/json.hpp lines 513-529), which matches the literals
at the position only, fails on the same input. -/
theorem c4_thm :
    parseBoolP ("xfalse".toList) = some (false, []) ∧
    headMatches trueLit ("xfalse".toList) = false ∧
    headMatches falseLit ("xfalse".toList) = false ∧
    parseImpl .boolean ("xfalse".toList) = none :=
  ⟨rfl, rfl, rfl, rfl⟩

/-- Claim C8 (code_bug).  The std::optional overload of
json::parser::parse (src/parser.hpp lines 75-85) marks the value absent and
succeeds on input starting with the literal null, and delegates to the
inner descriptor otherwise; but the literal is not consumed in any defined
way: std::regex_search is called without the declared std::smatch, so the
returned cursor is read from a never-populated match object (the rest field
none below).  Stringifying an absent optional emits exactly the literal
null (src/stringifier.hpp lines 51-62). -/
theorem c8_thm :
    parseOptionalP .pnum ("null".toList) = some ⟨none, none⟩ ∧
    parseOptionalP .pnum ("1".toList) = some ⟨some (.vn 1), some []⟩ ∧
    stringifyOptP (fun v => strF 4 .number (.one v)) none = "null".toList ∧
    stringifyOptP (fun v => strF 4 .number (.one v)) (some (.vn 1)) = "1".toList :=
  ⟨rfl, rfl, rfl, rfl⟩

/-- Claim C5 counterexample.  Parsing the literal +123 with the Number
descriptor fails in both revisions: std::from_chars rejects a leading plus
sign, in json.hpp's impl::parse directly, and in parser.hpp's parse_number
even though the regex number_re matches all four characters. -/
theorem c5_counterexample :
    parseImpl .number ("+123".toList) = none ∧
    parseNumberP ("+123".toList) = none ∧
    scanNumLen ("+123".toList) = some 4 :=
  ⟨rfl, rfl, rfl⟩

/-- Claim C5 amended.  A numeric literal with a leading plus sign never
parses: the number scanner regex of parser.hpp accepts it, but the
conversion via std::from_chars rejects the sign, so parsing fails for every
input starting with a plus, under both the impl revision and the parser.hpp
revision. -/
theorem c5_amended_thm :
    (∀ s, parseImpl .number ('+' :: s) = none) ∧
    (∀ s, parseNumberP ('+' :: s) = none) := by
  constructor
  · intro s
    obtain ⟨g, hg⟩ : ∃ g, implFuel ('+' :: s) = g + 1 :=
      ⟨2 * s.length + 5, by simp [implFuel]; omega⟩
    rw [parseImpl, hg, parseF_succ, parseStep, fromCharsInt_plus]
  · intro s
    rw [parseNumberP]
    rcases hscan : scanNumLen ('+' :: s) with - | L
    · rfl
    · cases L with
      | zero => rfl
      | succ L2 =>
        simp only [List.take_succ_cons, fromCharsInt_plus]

/-- Claim C1 counterexample.  Parsing the spec's own example text (the
object with keys x, y and the unknown key z) against the field list with
fields x and y fails: impl::parse_field (src/json.hpp lines 644-664)
returns failure when no field name matches the key, so the unknown entry is
not skipped. -/
theorem c1_counterexample :
    parseFieldsImpl [("x".toList, .number), ("y".toList, .number)] [.vn 0, .vn 0]
      ("\x7b\"x\":3,\"y\":4,\"z\":99\x7d".toList) = none := rfl

/-- Claim C1 amended.  An object entry whose key matches none of the field
names (case-sensitively) causes the field-list parse to fail rather than
being skipped: the dispatch over the fields returns failure when it runs
out of candidates, and there is no ignore-value subroutine.  In particular
the spec's example fails, while the same input without the unknown key
succeeds and populates both fields. -/
theorem c1_amended_thm :
    (∀ f rest idx key flds record s, key ∉ rest.map Prod.fst →
      parseF f (.fieldDisp rest idx key flds record) s = none) ∧
    parseFieldsImpl [("x".toList, .number), ("y".toList, .number)] [.vn 0, .vn 0]
      ("\x7b\"x\":3,\"y\":4,\"z\":99\x7d".toList) = none ∧
    parseFieldsImpl [("x".toList, .number), ("y".toList, .number)] [.vn 0, .vn 0]
      ("\x7b\"x\":3,\"y\":4\x7d".toList) = some (.va [.vn 3, .vn 4], some []) := by
  refine ⟨?_, rfl, rfl⟩
  intro f rest
  induction rest generalizing f with
  | nil =>
    intro idx key flds record s h
    cases f with
    | zero => rfl
    | succ f => rfl
  | cons p rest2 ih =>
    intro idx key flds record s h
    obtain ⟨name, d⟩ := p
    simp only [List.map_cons, List.mem_cons, not_or] at h
    obtain ⟨h1, h2⟩ := h
    cases f with
    | zero => rfl
    | succ f =>
      rw [parseF_succ, parseStep, if_neg (fun he => h1 he.symm)]
      exact ih f (idx + 1) key flds record s h2

/-- Claim C1 witness: the general part applied to a concrete unknown key. -/
theorem c1_witness :
    parseF 3 (.fieldDisp [("x".toList, Desc.number)] 0 ("z".toList) [] []) [] =
      none :=
  c1_amended_thm.1 3 [("x".toList, Desc.number)] 0 ("z".toList) [] [] []
    (by decide)

theorem goodTail_cons {c : Char} (h : c.isDigit = false) (xs : List Char) :
    GoodTail (c :: xs) := by
  intro c2 hc2
  rw [List.head?_cons, Option.some.injEq] at hc2
  subst hc2
  exact h

theorem plainKey_singleton (c : Char) (h1 : c ≠ '"') (h2 : c ≠ '\\') :
    PlainKey [c] := by
  intro c2 hc2
  rw [List.mem_singleton] at hc2
  subst hc2
  exact ⟨h1, h2⟩

theorem parseEscLoop_plain {k : List Char} (hk : PlainKey k) :
    ∀ acc r, parseEscLoop (k ++ '"' :: r) acc = some (acc ++ k, r) := by
  induction k with
  | nil =>
    intro acc r
    rw [List.nil_append, parseEscLoop.eq_def]
    simp only [reduceIte]
    rw [List.append_nil]
  | cons c k ih =>
    intro acc r
    obtain ⟨hq, hb⟩ := hk c (by simp)
    rw [List.cons_append, parseEscLoop.eq_def]
    simp only []
    rw [if_neg hq, if_neg hb,
      ih (fun c2 hc2 => hk c2 (by simp [hc2])) (acc ++ [c]) r,
      List.append_assoc]
    rfl

theorem parseEsc_plain {k : List Char} (hk : PlainKey k) (r : List Char) :
    parseEscapedString ('"' :: (k ++ '"' :: r)) = some (k, r) := by
  rw [parseEscapedString.eq_def]
  simp only [reduceIte]
  rw [parseEscLoop_plain hk [] r, List.nil_append]

theorem parseF_val_extend {d : Desc} {s : List Char} {v : Val}
    (h : parseImpl d s = some (v, some [])) :
    ∀ t, GoodTail t → ∀ g, 2 * (s ++ t).length + 4 ≤ g →
      parseF g (.val d) (s ++ t) = some (v, some t) := by
  intro t ht g hg
  rw [parseImpl] at h
  obtain ⟨c, hc, hext⟩ := (parseF_ext (implFuel s)).1 d s v [] h
  rw [List.append_nil] at hc
  subst hc
  exact ((parseF_norm (implFuel s)).1 d (s ++ t) v (some t) (hext t ht)).2 g hg

theorem emplaceA_nil (k : List Char) (v : Val) : emplaceA [] k v = [(k, v)] := rfl

theorem emplaceA_self (k : List Char) (v1 v2 : Val) :
    emplaceA [(k, v1)] k v2 = [(k, v1)] := by
  simp [emplaceA]

/-- Claim C2 counterexample.  The object text with two entries under the
same key k (values 1 then 2) parses successfully under Object(Number), and
the stored value is 1, the value of the first entry: object_inserter
(src/json.hpp lines 159-166) uses std::map::emplace, which does not
overwrite an existing key, so the later entry is discarded rather than
winning. -/
theorem c2_counterexample :
    parseImpl (.object .number) ("\x7b\"k\":1,\"k\":2\x7d".toList)
      = some (.vo [("k".toList, .vn 1)], some []) := rfl

/-- Claim C2 amended.  Duplicate keys follow a first-write-wins policy: for
every inner descriptor d, plain key k and two whitespace-free value texts
t1 and t2 that each parse completely under d, the two-entry object text
with key k mapped first to t1 and then to t2 parses to the one-entry map
holding the first value; the second entry's value is parsed and then
dropped by std::map::emplace. -/
theorem c2_amended_thm (k t1 t2 : List Char) (d : Desc) (v1 v2 : Val)
    (hk : PlainKey k)
    (h1 : parseImpl d t1 = some (v1, some []))
    (h2 : parseImpl d t2 = some (v2, some []))
    (hs1 : skipWsL t1 = t1) (hn1 : t1 ≠ [])
    (hs2 : skipWsL t2 = t2) (hn2 : t2 ≠ []) :
    parseImpl (.object d)
      ('{' :: '"' :: (k ++ ('"' :: ':' :: (t1 ++
        (',' :: '"' :: (k ++ ('"' :: ':' :: (t2 ++ ['}']))))))))
      = some (.vo [(k, v1)], some []) := by
  have hh1 : ∀ c, t1.head? = some c → isWsChar c = false :=
    skipWs_head_app (A := t1) (x := t1) (r := [])
      (by rw [List.append_nil]; exact hs1) hn1
  have hh2 : ∀ c, t2.head? = some c → isWsChar c = false :=
    skipWs_head_app (A := t2) (x := t2) (r := [])
      (by rw [List.append_nil]; exact hs2) hn2
  rw [parseImpl]
  obtain ⟨m, hm⟩ : ∃ m, implFuel ('{' :: '"' :: (k ++ ('"' :: ':' :: (t1 ++
      (',' :: '"' :: (k ++ ('"' :: ':' :: (t2 ++ ['}'])))))))) = m + 1 + 1 + 1 :=
    ⟨implFuel ('{' :: '"' :: (k ++ ('"' :: ':' :: (t1 ++
      (',' :: '"' :: (k ++ ('"' :: ':' :: (t2 ++ ['}'])))))))) - 3,
     by simp only [implFuel]; omega⟩
  rw [hm]
  simp only [implFuel, List.length_cons, List.length_append] at hm
  have hb1 : 2 * (t1 ++ (',' :: '"' :: (k ++ ('"' :: ':' :: (t2 ++ ['}']))))).length + 4
      ≤ m + 1 := by
    simp only [List.length_append, List.length_cons]
    omega
  have hb2 : 2 * (t2 ++ ['}']).length + 4 ≤ m := by
    simp only [List.length_append, List.length_cons]
    omega
  rw [parseF_succ, parseStep]
  rw [if_pos rfl, skipWs_cons_nonws (c := '"') (by decide)]
  rw [parseF_succ, parseStep]
  rw [if_neg (by decide), parseEsc_plain hk]
  simp only []
  rw [skipWs_cons_nonws (c := ':') (by decide)]
  simp only []
  simp only [reduceIte]
  rw [skipWs_stops hn1 hh1]
  have hval1 : parseF (m + 1) (.val d)
      (t1 ++ (',' :: '"' :: (k ++ ('"' :: ':' :: (t2 ++ ['}'])))))
      = some (v1, some (',' :: '"' :: (k ++ ('"' :: ':' :: (t2 ++ ['}']))))) :=
    parseF_val_extend h1 _ (goodTail_cons (by decide) _) (m + 1) hb1
  rw [hval1]
  simp only []
  rw [skipWs_cons_nonws (c := ',') (by decide)]
  simp only []
  simp only [reduceIte]
  rw [emplaceA_nil, skipWs_cons_nonws (c := '"') (by decide)]
  rw [parseF_succ, parseStep]
  rw [if_neg (by decide), parseEsc_plain hk]
  simp only []
  rw [skipWs_cons_nonws (c := ':') (by decide)]
  simp only []
  simp only [reduceIte]
  rw [skipWs_stops hn2 hh2]
  have hval2 : parseF m (.val d) (t2 ++ ['}']) = some (v2, some ['}']) :=
    parseF_val_extend h2 _ (goodTail_cons (by decide) _) m hb2
  rw [hval2]
  simp only []
  rw [show skipWsL ['}'] = ['}'] from rfl]
  simp only [reduceIte]
  rw [emplaceA_self]
  rw [if_neg (by decide)]

/-- Claim C2 witness: the amended duplicate-key theorem at the concrete key
k with values 1 then 2; the stored value is 1. -/
theorem c2_witness :
    parseImpl (.object .number)
      ('{' :: '"' :: ("k".toList ++ ('"' :: ':' :: ("1".toList ++
        (',' :: '"' :: ("k".toList ++ ('"' :: ':' :: ("2".toList ++ ['}']))))))))
      = some (.vo [("k".toList, .vn 1)], some []) :=
  c2_amended_thm "k".toList "1".toList "2".toList .number (.vn 1) (.vn 2)
    (plainKey_singleton 'k' (by decide) (by decide)) rfl rfl rfl (by decide)
    rfl (by decide)

/-- Claim C6 (code_bug).  The bounded-write claim fails in the json.hpp
revision: array_inserter for a fixed-extent destination E[N]
(src/json.hpp lines 147-157) performs values[_index++] = element with no
bounds check and impl::parse for array (lines 561-593) calls it for every
parsed element, so parsing [1,2,3] into a two-slot destination reaches a
write at index 2, one past the buffer's end (the model aborts at that
write); the same input with only two elements parses cleanly, isolating the
excess element's write as the out-of-bounds access.  By contrast the
parser.hpp revision behaves as claimed: whenever the loop of
parser::parse_array (src/parser.hpp lines 226-260) succeeds on a
destination of extent N, the resulting buffer has the length of the
starting buffer and agrees with it on every slot at index N and beyond (the
guard n < extent_v, lines 241-244, drops excess elements), and parsing
[1,2,3] into a capacity-2 destination there leaves the observation slot at
index 2 untouched. -/
theorem c6_thm :
    parseArrImplFixed .number [.vn 0, .vn 0] ("[1,2,3]".toList) = none ∧
    arrInsFixedImpl [.vn 1, .vn 2] 2 (.vn 3) = none ∧
    parseArrImplFixed .number [.vn 0, .vn 0] ("[1,2]".toList)
      = some (([.vn 1, .vn 2], 2), some []) ∧
    (∀ (pv : List Char → Option (Val × List Char)) f N n buf s v r,
      arrFixedLoop pv f N n buf s = some (v, r) →
      v.length = buf.length ∧ ∀ j, N ≤ j → v.get? j = buf.get? j) ∧
    parseArrayP (parsePH .pnum) 2 [.vn 0, .vn 0, .vn 99] ("[1,2,3]".toList)
      = some ([.vn 1, .vn 2, .vn 99], []) := by
  refine ⟨rfl, rfl, rfl, ?_, rfl⟩
  · intro pv f
    induction f with
    | zero =>
      intro N n buf s v r h
      simp [arrFixedLoop] at h
    | succ f ih =>
      intro N n buf s v r h
      match s with
      | [] => simp [arrFixedLoop] at h
      | c :: r0 =>
        rw [arrFixedLoop.eq_def] at h
        simp only [] at h
        by_cases hc : c = ']'
        · rw [if_pos hc] at h
          simp only [Option.some.injEq, Prod.mk.injEq] at h
          obtain ⟨rfl, rfl⟩ := h
          exact ⟨rfl, fun j hj => rfl⟩
        · rw [if_neg hc] at h
          rcases hpv : pv (c :: r0) with - | ⟨v1, r1⟩
          · rw [hpv] at h
            simp at h
          · rw [hpv] at h
            simp only [] at h
            have hbuf2 : (if n < N then buf.set n v1 else buf).length = buf.length ∧
                ∀ j, N ≤ j →
                  (if n < N then buf.set n v1 else buf).get? j = buf.get? j := by
              by_cases hn : n < N
              · rw [if_pos hn]
                exact ⟨List.length_set buf n v1,
                  fun j hj => List.get?_set_ne v1 buf (by omega)⟩
              · rw [if_neg hn]
                exact ⟨rfl, fun j hj => rfl⟩
            rcases hsw : skipWsL r1 with - | ⟨c2, r2⟩
            · rw [hsw] at h
              simp at h
            · rw [hsw] at h
              simp only [] at h
              by_cases hc2 : c2 = ','
              · rw [if_pos hc2] at h
                obtain ⟨ih1, ih2⟩ := ih N (n + 1) _ _ v r h
                exact ⟨ih1.trans hbuf2.1,
                  fun j hj => (ih2 j hj).trans (hbuf2.2 j hj)⟩
              · rw [if_neg hc2] at h
                obtain ⟨ih1, ih2⟩ := ih N (n + 1) _ _ v r h
                exact ⟨ih1.trans hbuf2.1,
                  fun j hj => (ih2 j hj).trans (hbuf2.2 j hj)⟩

/-- Claim C6 witness: the parser.hpp preservation conjunct applied to the
concrete run on the text 1,2,3] with capacity 2 and a three-slot buffer
whose last slot holds the sentinel 99; the result keeps the length and the
sentinel. -/
theorem c6_witness :
    ([Val.vn 1, Val.vn 2, Val.vn 99] : List Val).length
      = ([Val.vn 0, Val.vn 0, Val.vn 99] : List Val).length ∧
    ∀ j, 2 ≤ j →
      ([Val.vn 1, Val.vn 2, Val.vn 99] : List Val).get? j
        = ([Val.vn 0, Val.vn 0, Val.vn 99] : List Val).get? j :=
  c6_thm.2.2.2.1 (parsePH .pnum) 8 2 0 [Val.vn 0, Val.vn 0, Val.vn 99]
    ("1,2,3]".toList) [Val.vn 1, Val.vn 2, Val.vn 99] [] rfl

/-- Claim C7.  ElementList parsing is positionally strict: parsing the
spec's example Steve/25 two-element array against the three-member person
element list fails, the exact three-element input succeeds, a four-element
input fails, and a member parse for a non-boolean leaf never succeeds at a
closing bracket (parser::parse_element, src/parser.hpp lines 386-428,
requires a comma between members and the bracket exactly after the last
one). -/
theorem c7_thm :
    parseElemsP [.pstr, .pnum, .pbool] [.vs [], .vn 0, .vb false]
      ("[\"Steve\",25]".toList) = none ∧
    parseElemsP [.pstr, .pnum, .pbool] [.vs [], .vn 0, .vb false]
      ("[\"Steve\",25,true]".toList)
      = some ([.vs "Steve".toList, .vn 25, .vb true], []) ∧
    parseElemsP [.pstr, .pnum, .pbool] [.vs [], .vn 0, .vb false]
      ("[\"Steve\",25,true,1]".toList) = none ∧
    (∀ d s, d ≠ DescP.pbool → parsePH d (']' :: s) = none) := by
  refine ⟨rfl, rfl, rfl, ?_⟩
  intro d s hd
  cases d with
  | pbool => exact absurd rfl hd
  | pnum => rfl
  | pstr => rfl

/-- Claim C7 witness: the member-parse part at the Number descriptor on a
lone closing bracket. -/
theorem c7_witness : parsePH DescP.pnum (']' :: []) = none :=
  c7_thm.2.2.2 DescP.pnum [] (fun h => DescP.noConfusion h)

/-- Claim C9.  Trailing commas are accepted: for every inner descriptor d,
plain key k and whitespace-free value text t1 parsing completely under d,
the array texts with and without a trailing comma both parse to the same
one-element array (impl::parse for array, src/json.hpp lines 571-590,
restarts the loop after a comma and a following bracket ends it), the
object texts with and without a trailing comma both parse to the same
one-entry map (lines 605-639), and in the parser.hpp revision the texts
with and without the trailing comma parse to the same buffer
(parser::parse_array, src/parser.hpp lines 226-260). -/
theorem c9_thm (k t1 : List Char) (d : Desc) (v1 : Val)
    (hk : PlainKey k)
    (h1 : parseImpl d t1 = some (v1, some []))
    (hs1 : skipWsL t1 = t1) (hn1 : t1 ≠ []) :
    (parseImpl (.array d) ('[' :: (t1 ++ [',', ']'])) = some (.va [v1], some []) ∧
     parseImpl (.array d) ('[' :: (t1 ++ [']'])) = some (.va [v1], some [])) ∧
    (parseImpl (.object d)
        ('{' :: '"' :: (k ++ ('"' :: ':' :: (t1 ++ [',', '}']))))
        = some (.vo [(k, v1)], some []) ∧
     parseImpl (.object d)
        ('{' :: '"' :: (k ++ ('"' :: ':' :: (t1 ++ ['}']))))
        = some (.vo [(k, v1)], some [])) ∧
    (parseArrayP (parsePH .pnum) 2 [.vn 0, .vn 0] ("[1,]".toList)
        = some ([.vn 1, .vn 0], []) ∧
     parseArrayP (parsePH .pnum) 2 [.vn 0, .vn 0] ("[1]".toList)
        = some ([.vn 1, .vn 0], [])) := by
  have hh1 : ∀ c, t1.head? = some c → isWsChar c = false :=
    skipWs_head_app (A := t1) (x := t1) (r := [])
      (by rw [List.append_nil]; exact hs1) hn1
  obtain ⟨c0, t1x, rfl⟩ : ∃ c0 t1x, t1 = c0 :: t1x := by
    cases t1 with
    | nil => exact absurd rfl hn1
    | cons a b => exact ⟨a, b, rfl⟩
  have hc0 : c0 ≠ ']' := by
    intro he
    subst he
    rw [parseImpl, parseF_val_rb] at h1
    exact Option.noConfusion h1
  refine ⟨⟨?_, ?_⟩, ⟨?_, ?_⟩, rfl, rfl⟩
  · -- array, trailing comma
    rw [parseImpl]
    obtain ⟨m, hm⟩ : ∃ m,
        implFuel ('[' :: ((c0 :: t1x) ++ [',', ']'])) = m + 1 + 1 + 1 :=
      ⟨implFuel ('[' :: ((c0 :: t1x) ++ [',', ']'])) - 3,
       by simp only [implFuel]; omega⟩
    rw [hm]
    simp only [implFuel, List.length_cons, List.length_append] at hm
    have hb : 2 * ((c0 :: t1x) ++ [',', ']']).length + 4 ≤ m + 1 := by
      simp only [List.length_append, List.length_cons]
      omega
    have hval : parseF (m + 1) (.val d) ((c0 :: t1x) ++ [',', ']'])
        = some (v1, some [',', ']']) :=
      parseF_val_extend h1 _ (goodTail_cons (by decide) _) (m + 1) hb
    rw [parseF_succ, parseStep]
    rw [if_pos rfl, skipWs_stops hn1 hh1]
    rw [List.cons_append] at hval ⊢
    rw [parseF_succ, parseStep]
    rw [if_neg hc0, hval]
    simp only []
    rw [show skipWsL [',', ']'] = [',', ']'] from rfl]
    simp only [reduceIte]
    rw [show skipWsL [']'] = [']'] from rfl]
    rw [parseF_succ, parseStep]
    simp only [reduceIte]
    rw [List.nil_append]
  · -- array, no trailing comma
    rw [parseImpl]
    obtain ⟨m, hm⟩ : ∃ m,
        implFuel ('[' :: ((c0 :: t1x) ++ [']'])) = m + 1 + 1 + 1 :=
      ⟨implFuel ('[' :: ((c0 :: t1x) ++ [']'])) - 3,
       by simp only [implFuel]; omega⟩
    rw [hm]
    simp only [implFuel, List.length_cons, List.length_append] at hm
    have hb : 2 * ((c0 :: t1x) ++ [']']).length + 4 ≤ m + 1 := by
      simp only [List.length_append, List.length_cons]
      omega
    have hval : parseF (m + 1) (.val d) ((c0 :: t1x) ++ [']'])
        = some (v1, some [']']) :=
      parseF_val_extend h1 _ (goodTail_cons (by decide) _) (m + 1) hb
    rw [parseF_succ, parseStep]
    rw [if_pos rfl, skipWs_stops hn1 hh1]
    rw [List.cons_append] at hval ⊢
    rw [parseF_succ, parseStep]
    rw [if_neg hc0, hval]
    simp only []
    rw [show skipWsL [']'] = [']'] from rfl]
    simp only [reduceIte]
    rw [if_neg (by decide), List.nil_append]
  · -- object, trailing comma
    rw [parseImpl]
    obtain ⟨m, hm⟩ : ∃ m,
        implFuel ('{' :: '"' :: (k ++ ('"' :: ':' :: ((c0 :: t1x) ++ [',', '}']))))
          = m + 1 + 1 + 1 :=
      ⟨implFuel ('{' :: '"' :: (k ++ ('"' :: ':' :: ((c0 :: t1x) ++ [',', '}'])))) - 3,
       by simp only [implFuel]; omega⟩
    rw [hm]
    simp only [implFuel, List.length_cons, List.length_append] at hm
    have hb : 2 * ((c0 :: t1x) ++ [',', '}']).length + 4 ≤ m + 1 := by
      simp only [List.length_append, List.length_cons]
      omega
    have hval : parseF (m + 1) (.val d) ((c0 :: t1x) ++ [',', '}'])
        = some (v1, some [',', '}']) :=
      parseF_val_extend h1 _ (goodTail_cons (by decide) _) (m + 1) hb
    rw [parseF_succ, parseStep]
    rw [if_pos rfl, skipWs_cons_nonws (c := '"') (by decide)]
    rw [parseF_succ, parseStep]
    rw [if_neg (by decide), parseEsc_plain hk]
    simp only []
    rw [skipWs_cons_nonws (c := ':') (by decide)]
    simp only []
    simp only [reduceIte]
    rw [skipWs_stops hn1 hh1, hval]
    simp only []
    rw [show skipWsL [',', '}'] = [',', '}'] from rfl]
    simp only [reduceIte]
    rw [emplaceA_nil]
    rw [show skipWsL ['}'] = ['}'] from rfl]
    rw [parseF_succ, parseStep]
    simp only [reduceIte]
  · -- object, no trailing comma
    rw [parseImpl]
    obtain ⟨m, hm⟩ : ∃ m,
        implFuel ('{' :: '"' :: (k ++ ('"' :: ':' :: ((c0 :: t1x) ++ ['}']))))
          = m + 1 + 1 + 1 :=
      ⟨implFuel ('{' :: '"' :: (k ++ ('"' :: ':' :: ((c0 :: t1x) ++ ['}'])))) - 3,
       by simp only [implFuel]; omega⟩
    rw [hm]
    simp only [implFuel, List.length_cons, List.length_append] at hm
    have hb : 2 * ((c0 :: t1x) ++ ['}']).length + 4 ≤ m + 1 := by
      simp only [List.length_append, List.length_cons]
      omega
    have hval : parseF (m + 1) (.val d) ((c0 :: t1x) ++ ['}'])
        = some (v1, some ['}']) :=
      parseF_val_extend h1 _ (goodTail_cons (by decide) _) (m + 1) hb
    rw [parseF_succ, parseStep]
    rw [if_pos rfl, skipWs_cons_nonws (c := '"') (by decide)]
    rw [parseF_succ, parseStep]
    rw [if_neg (by decide), parseEsc_plain hk]
    simp only []
    rw [skipWs_cons_nonws (c := ':') (by decide)]
    simp only []
    simp only [reduceIte]
    rw [skipWs_stops hn1 hh1, hval]
    simp only []
    rw [show skipWsL ['}'] = ['}'] from rfl]
    simp only [reduceIte]
    rw [emplaceA_nil]
    rw [if_neg (by decide)]

/-- Claim C9 witness: both revisions at the concrete inputs, values 1 under
Number, key k; trailing and non-trailing variants agree. -/
theorem c9_witness :
    ((parseImpl (.array .number) ('[' :: ("1".toList ++ [',', ']']))
        = some (.va [.vn 1], some []) ∧
      parseImpl (.array .number) ('[' :: ("1".toList ++ [']']))
        = some (.va [.vn 1], some [])) ∧
     (parseImpl (.object .number)
        ('{' :: '"' :: ("k".toList ++ ('"' :: ':' :: ("1".toList ++ [',', '}']))))
        = some (.vo [("k".toList, .vn 1)], some []) ∧
      parseImpl (.object .number)
        ('{' :: '"' :: ("k".toList ++ ('"' :: ':' :: ("1".toList ++ ['}']))))
        = some (.vo [("k".toList, .vn 1)], some [])) ∧
     (parseArrayP (parsePH .pnum) 2 [.vn 0, .vn 0] ("[1,]".toList)
        = some ([.vn 1, .vn 0], []) ∧
      parseArrayP (parsePH .pnum) 2 [.vn 0, .vn 0] ("[1]".toList)
        = some ([.vn 1, .vn 0], []))) :=
  c9_thm "k".toList "1".toList .number (.vn 1)
    (plainKey_singleton 'k' (by decide) (by decide)) rfl rfl (by decide)

/-- Claim C10 counterexample.  The parse of a numeric literal is greedy, so
success does not depend only on the consumed prefix: the text 1 parses to
the number 1 consuming everything, but the same prefix followed by the
suffix 5 parses to the number 15 rather than to 1 with remainder 5.  Also,
the text consisting of the single opening bracket parses with phantom
success under Array(Number): the loop stops at the end of the input and
returns success with the overrun iterator, modelled as a none remainder. -/
theorem c10_counterexample :
    parseImpl .number ("1".toList) = some (.vn 1, some []) ∧
    parseImpl .number ("15".toList) = some (.vn 15, some []) ∧
    parseImpl (.array .number) ("[".toList) = some (.va [], none) :=
  ⟨rfl, rfl, rfl⟩

/-- Claim C10 amended.  Prefix extension holds when the remainder is a real
position and the appended suffix does not begin with a decimal digit: a
parse succeeding with remainder r depends only on the consumed prefix, and
that prefix followed by any digit-free-headed suffix parses to the same
value with exactly that suffix left.  Leading whitespace is not skipped and
fails the parse for the leaf descriptors Boolean, Number and String. -/
theorem c10_amended_thm :
    (∀ d s v r, parseImpl d s = some (v, some r) →
      ∃ c, s = c ++ r ∧ ∀ t, GoodTail t →
        parseImpl d (c ++ t) = some (v, some t)) ∧
    (∀ c0 rest, isWsChar c0 = true →
      parseImpl .boolean (c0 :: rest) = none ∧
      parseImpl .number (c0 :: rest) = none ∧
      parseImpl .string (c0 :: rest) = none) := by
  constructor
  · intro d s v r h
    rw [parseImpl] at h
    obtain ⟨c, hc, hext⟩ := (parseF_ext (implFuel s)).1 d s v r h
    refine ⟨c, hc, fun t ht => ?_⟩
    rw [parseImpl]
    exact ((parseF_norm (implFuel s)).1 d (c ++ t) v (some t) (hext t ht)).2 _
      (by simp [implFuel])
  · intro c0 rest hws
    obtain ⟨g, hg⟩ : ∃ g, implFuel (c0 :: rest) = g + 1 :=
      ⟨implFuel (c0 :: rest) - 1, by simp only [implFuel]; omega⟩
    simp only [isWsChar, Bool.or_eq_true, decide_eq_true_eq] at hws
    refine ⟨?_, ?_, ?_⟩ <;>
      · rw [parseImpl, hg, parseF_succ]
        rcases hws with ((((h | h) | h) | h) | h) | h <;> subst h <;> rfl

/-- Claim C10 witness: the digit-free extension applied to the parse of
1abc (which consumes the 1), replaying it before the suffix Z, and the
leading-whitespace failure at a space before the number 1. -/
theorem c10_witness :
    (∃ c, ("1abc".toList : List Char) = c ++ "abc".toList ∧
      parseImpl .number (c ++ ['Z']) = some (.vn 1, some ['Z'])) ∧
    parseImpl .number (' ' :: "1".toList) = none := by
  constructor
  · obtain ⟨c, hc, hext⟩ :=
      c10_amended_thm.1 .number ("1abc".toList) (.vn 1) ("abc".toList) rfl
    exact ⟨c, hc, hext ['Z'] (goodTail_cons (by decide) [])⟩
  · exact (c10_amended_thm.2 ' ' ("1".toList) (by decide)).2.1

end SJson
